import Mathlib

/-!
# AES-256 step-by-step visualiser: `static/aes.js`

A shallow embedding of the step-trace grouping (`createBlockProcessing`,
`formatAsMatrix`) and of the three timer chains (`animateFlowchartStages`,
`animateBlockSteps`, `animateSteps`) of `static/aes.js`, followed by the
properties proved about them.

JavaScript strings are modelled as lists of characters; the regular expressions
of the source only ever inspect ASCII characters.
-/

namespace AesVis

/-- A JavaScript string value. -/
abbrev Str := List Char

/-- One entry of `data.steps`: `{ step: string, detail: string }`. -/
structure StepRecord where
  step : Str
  detail : Str
deriving DecidableEq, Repr

/-! ## String primitives used by the source -/

/-- `s.includes(pat)`: `pat` occurs in `s` as a contiguous substring. -/
def includes : Str → Str → Bool
  | [], pat => pat.isPrefixOf []
  | c :: cs, pat => pat.isPrefixOf (c :: cs) || includes cs pat

/-- The literal `Block ` (with its trailing blank) of the pattern `/Block (\d+)/`. -/
def blockLit : Str := ['B', 'l', 'o', 'c', 'k', ' ']

/-- The marker `Block`. -/
def markerBlock : Str := ['B', 'l', 'o', 'c', 'k']

/-- The marker `Encryption`. -/
def markerEncryption : Str := ['E', 'n', 'c', 'r', 'y', 'p', 't', 'i', 'o', 'n']

/-- The marker `Decryption`. -/
def markerDecryption : Str := ['D', 'e', 'c', 'r', 'y', 'p', 't', 'i', 'o', 'n']

/-- The class `\d` of a non-unicode JavaScript regular expression: `[0-9]`. -/
def isDigitChar (c : Char) : Bool := decide ('0' ≤ c) && decide (c ≤ '9')

/-- The class `[A-F0-9]`. -/
def isHexChar (c : Char) : Bool :=
  (decide ('A' ≤ c) && decide (c ≤ 'F')) || (decide ('0' ≤ c) && decide (c ≤ '9'))

/-- An attempt to match `/Block (\d+)/` starting exactly at the head of `s`; the result is
capture group 1 (the greedy digit run). -/
def matchBlockAt (s : Str) : Option Str :=
  if blockLit.isPrefixOf s then
    let ds := (s.drop blockLit.length).takeWhile isDigitChar
    if ds.isEmpty then none else some ds
  else none

/-- The call `label.match(/Block (\d+)/)`: the leftmost start position that matches wins;
the value is capture group 1 (`blockMatch[1]`), `none` when the match is `null`. -/
def matchBlock : Str → Option Str
  | [] => none
  | c :: cs =>
    match matchBlockAt (c :: cs) with
    | some d => some d
    | none => matchBlock cs

/-- An attempt to match `/([A-F0-9]{32,})/` starting exactly at the head of `s`. -/
def matchHexAt (s : Str) : Option Str :=
  let run := s.takeWhile isHexChar
  if 32 ≤ run.length then some run else none

/-- The call `detail.match(/([A-F0-9]{32,})/)`: leftmost match, greedy; the value is capture
group 1 (`hexMatch[1]`), `none` when the match is `null`. -/
def matchHex : Str → Option Str
  | [] => none
  | c :: cs =>
    match matchHexAt (c :: cs) with
    | some r => some r
    | none => matchHex cs

/-! ## Plain JavaScript objects with string keys -/

/-- The own properties of a plain object, in order of creation. -/
structure JSObject (α : Type) where
  props : List (Str × α)

namespace JSObject

/-- The object literal `{}`. -/
def empty {α : Type} : JSObject α := ⟨[]⟩

/-- The value of the first property named `k` in a property list. -/
def lookupProp {α : Type} (k : Str) : List (Str × α) → Option α
  | [] => none
  | p :: ps => if p.1 == k then some p.2 else lookupProp k ps

/-- Property read `o[k]` (`none` stands for `undefined`). -/
def get {α : Type} (o : JSObject α) (k : Str) : Option α := lookupProp k o.props

/-- Replace the value of an existing property, keeping its position. -/
def replaceValue {α : Type} (k : Str) (v : α) : List (Str × α) → List (Str × α)
  | [] => []
  | p :: ps => if p.1 == k then (k, v) :: ps else p :: replaceValue k v ps

/-- Property write `o[k] = v`: an existing property keeps its place, a new one is created
last. -/
def set {α : Type} (o : JSObject α) (k : Str) (v : α) : JSObject α :=
  if (o.get k).isSome then ⟨replaceValue k v o.props⟩ else ⟨o.props ++ [(k, v)]⟩

/-- The numeric value of a string of decimal digits. -/
def decimalValue (k : Str) : Nat :=
  k.foldl (fun acc c => 10 * acc + (c.toNat - '0'.toNat)) 0

/-- A property key is an array index when it is the canonical decimal form of an integer
in the range `0 .. 2^32 - 2`. -/
def isArrayIndex (k : Str) : Bool :=
  !k.isEmpty && k.all isDigitChar && (k == ['0'] || k.head? != some '0') &&
    decide (decimalValue k < 2 ^ 32 - 1)

/-- The order in which the own string keys of an ordinary object are listed, given the keys
in order of creation: array indices in ascending numeric order, then the other keys in
order of creation. -/
def ownKeyOrder (ks : List Str) : List Str :=
  (ks.filter isArrayIndex).insertionSort (fun a b => decimalValue a ≤ decimalValue b) ++
    ks.filter (fun k => !isArrayIndex k)

/-- The property names of an object in order of creation. -/
def createdKeys {α : Type} (o : JSObject α) : List Str := o.props.map (fun p => p.1)

/-- The call `Object.keys(o)` on an ordinary object. -/
def keys {α : Type} (o : JSObject α) : List Str := ownKeyOrder o.createdKeys

end JSObject

/-! ## `createBlockProcessing` and `formatAsMatrix` -/

/-- The filter predicate of `createBlockProcessing`: the label contains `Block`,
`Encryption` or `Decryption`. -/
def isBlockStep (step : StepRecord) : Bool :=
  includes step.step markerBlock || includes step.step markerEncryption ||
    includes step.step markerDecryption

/-- The body of `blockSteps.forEach(step => ...)`: one record is pushed onto the group of its
block number, the group being created on first use. -/
def groupStep (blockGroups : JSObject (List StepRecord)) (step : StepRecord) :
    JSObject (List StepRecord) :=
  match matchBlock step.step with
  | none => blockGroups
  | some blockNum =>
    let groups := if (blockGroups.get blockNum).isNone then blockGroups.set blockNum []
      else blockGroups
    groups.set blockNum ((groups.get blockNum).getD [] ++ [step])

/-- The local `blockGroups` of `createBlockProcessing` once the grouping loop has run. -/
def blockGroupsOf (steps : List StepRecord) : JSObject (List StepRecord) :=
  (steps.filter isBlockStep).foldl groupStep JSObject.empty

/-- The call `hexString.substr(i, n)`. -/
def substr (s : Str) (i n : Nat) : Str := (s.drop i).take n

/-- The markup of one matrix cell: `<div class="matrix-cell">cell</div>`. -/
def cellHtml (cell : Str) : Str :=
  "<div class=\"matrix-cell\">".toList ++ cell ++ "</div>".toList

/-- The `for` loop of `formatAsMatrix`, entered with loop variable `i` and accumulator
`matrix`. -/
def formatAsMatrixLoop (hexString : Str) (i : Nat) (matrix : Str) : Str :=
  if i < min 32 hexString.length then
    formatAsMatrixLoop hexString (i + 2) (matrix ++ cellHtml (substr hexString i 2))
  else matrix
termination_by min 32 hexString.length - i
decreasing_by omega

/-- The function `formatAsMatrix(hexString)`. -/
def formatAsMatrix (hexString : Str) : Str := formatAsMatrixLoop hexString 0 []

/-- A `div.block-step` element: its markup and whether it carries the class `active`. -/
structure BlockStepEl where
  innerHTML : Str
  active : Bool
deriving DecidableEq, Repr

/-- A `div.block-container` element: the block number shown in its header
(`Block N Processing`) and used in the id of its step box (`block-N-steps`), and the
children of that step box. -/
structure BlockContainer where
  blockNum : Str
  steps : List BlockStepEl
deriving DecidableEq, Repr

/-- The markup assigned to `stepEl.innerHTML`: the label, followed by a matrix display
when the detail holds a run of 32 or more characters of `[A-F0-9]`. -/
def stepContent (step : StepRecord) : Str :=
  match matchHex step.detail with
  | some hex =>
    step.step ++ "<br><div class=\"matrix-display\">".toList ++ formatAsMatrix hex ++
      "</div>".toList
  | none => step.step

/-- The element built for one record of a group. -/
def stepElOf (step : StepRecord) : BlockStepEl := ⟨stepContent step, false⟩

/-- The body of `Object.keys(blockGroups).forEach(blockNum => ...)`: one block container is
appended to `container`, holding one element per record of the group. -/
def appendBlock (blockGroups : JSObject (List StepRecord)) (container : List BlockContainer)
    (blockNum : Str) : List BlockContainer :=
  container ++ [⟨blockNum, ((blockGroups.get blockNum).getD []).map stepElOf⟩]

/-- The function `createBlockProcessing(steps, container, action)`; the value is the list of
children of `container` afterwards. -/
def createBlockProcessing (steps : List StepRecord) (container : List BlockContainer)
    (_action : Str) : List BlockContainer :=
  let blockSteps := steps.filter isBlockStep
  if blockSteps.length = 0 then container
  else
    let blockGroups := blockSteps.foldl groupStep JSObject.empty
    blockGroups.keys.foldl (appendBlock blockGroups) container

/-! ## `animateFlowchartStages` -/

/-- The two class tokens that the stage animation toggles on an element. -/
structure StageClasses where
  active : Bool
  completed : Bool
deriving DecidableEq, Repr

/-- The class list of every element, addressed by element id
(`document.getElementById(id).classList`). -/
abbrev Document := String → StageClasses

/-- Apply a class-list operation to the element with the given id. -/
def onElement (dom : Document) (id : String) (f : StageClasses → StageClasses) : Document :=
  fun j => if j = id then f (dom j) else dom j

/-- The state of one run of `animateFlowchartStages`: the document, the closure variable
`currentStage`, the number of pending `setTimeout(activateNextStage, ...)` callbacks and the
number of calls of `animateBlockSteps` made so far. -/
structure StageRun where
  dom : Document
  currentStage : Nat
  timers : Nat
  blockAnimations : Nat

/-- The constant `stageOrder`. -/
def stageOrder : List String :=
  ["stage-input", "stage-key", "stage-mode", "stage-processing", "stage-output"]

/-- The element id `stageOrder[i]`. -/
def stageId (i : Nat) : String := stageOrder.getD i ""

/-- The call `document.getElementById(id).classList.add("active")`. -/
def addActive (id : String) (dom : Document) : Document :=
  onElement dom id (fun c => { c with active := true })

/-- The call `document.getElementById(id).classList.remove("active")`. -/
def removeActive (id : String) (dom : Document) : Document :=
  onElement dom id (fun c => { c with active := false })

/-- The call `document.getElementById(id).classList.add("completed")`. -/
def addCompleted (id : String) (dom : Document) : Document :=
  onElement dom id (fun c => { c with completed := true })

/-- The closure `activateNextStage()`. -/
def activateNextStage (s : StageRun) : StageRun :=
  let s1 : StageRun :=
    if s.currentStage > 0 then
      let d1 := removeActive (stageId (s.currentStage - 1)) s.dom
      { s with dom := addCompleted (stageId (s.currentStage - 1)) d1 }
    else s
  if s1.currentStage < stageOrder.length then
    let s2 : StageRun := { s1 with dom := addActive (stageId s1.currentStage) s1.dom }
    let s3 : StageRun := { s2 with currentStage := s2.currentStage + 1 }
    let s4 : StageRun :=
      if stageId (s3.currentStage - 1) = "stage-processing" then
        { s3 with blockAnimations := s3.blockAnimations + 1 }
      else s3
    { s4 with timers := s4.timers + 1 }
  else
    if stageOrder.length > 0 then
      let d1 := removeActive (stageId (stageOrder.length - 1)) s1.dom
      { s1 with dom := addCompleted (stageId (stageOrder.length - 1)) d1 }
    else s1

/-- The function `animateFlowchartStages(steps)`: the elements of class `flow-stage` (given
by their ids) lose `active` and `completed`, and the first timer is set. -/
def animateFlowchartStages (flowStages : List String) (dom : Document) : StageRun :=
  { dom := flowStages.foldl
      (fun d id => onElement d id (fun c => { c with active := false, completed := false })) dom
    currentStage := 0
    timers := 1
    blockAnimations := 0 }

/-- One timer tick of the stage chain: a pending callback, if any, runs. -/
def stageTick (s : StageRun) : StageRun :=
  if s.timers = 0 then s else activateNextStage { s with timers := s.timers - 1 }

/-- The state after `k` timer ticks. -/
def stageTicks : Nat → StageRun → StageRun
  | 0, s => s
  | k + 1, s => stageTick (stageTicks k s)

/-- The run of the stage chain until no callback is pending, with a bound on the number of
ticks. -/
def stageRunToEnd : Nat → StageRun → StageRun
  | 0, s => s
  | fuel + 1, s => if s.timers = 0 then s else stageRunToEnd fuel (stageTick s)

/-- The stages that carry the class `active`, in the fixed order. -/
def activeStages (s : StageRun) : List String :=
  stageOrder.filter (fun id => (s.dom id).active)

/-- The stages that carry the class `completed`, in the fixed order. -/
def completedStages (s : StageRun) : List String :=
  stageOrder.filter (fun id => (s.dom id).completed)

/-! ## `animateBlockSteps` -/

/-- Set or clear the class `active` on the element at index `i` of a node list
(`blockSteps[i].classList.add("active")` and `.remove("active")`). -/
def setActive : List BlockStepEl → Nat → Bool → List BlockStepEl
  | [], _, _ => []
  | e :: es, 0, b => { e with active := b } :: es
  | e :: es, i + 1, b => e :: setActive es i b

/-- The state of one run of `animateBlockSteps`: the node list `blockSteps`, the closure
variable `stepIndex` and the number of pending `setTimeout(highlightNextStep, ...)`
callbacks. -/
structure BlockRun where
  blockSteps : List BlockStepEl
  stepIndex : Nat
  timers : Nat
deriving DecidableEq, Repr

/-- The closure `highlightNextStep()`. -/
def highlightNextStep (s : BlockRun) : BlockRun :=
  if s.stepIndex < s.blockSteps.length then
    let s1 : BlockRun :=
      if s.stepIndex > 0 then
        { s with blockSteps := setActive s.blockSteps (s.stepIndex - 1) false }
      else s
    let s2 : BlockRun := { s1 with blockSteps := setActive s1.blockSteps s1.stepIndex true }
    let s3 : BlockRun := { s2 with stepIndex := s2.stepIndex + 1 }
    { s3 with timers := s3.timers + 1 }
  else s

/-- The function `animateBlockSteps()`, given the node list of `.block-step` elements: the
first timer is set. -/
def animateBlockSteps (nodes : List BlockStepEl) : BlockRun :=
  { blockSteps := nodes, stepIndex := 0, timers := 1 }

/-- One timer tick of the highlight chain: a pending callback, if any, runs. -/
def blockTick (s : BlockRun) : BlockRun :=
  if s.timers = 0 then s else highlightNextStep { s with timers := s.timers - 1 }

/-- The state after `k` timer ticks. -/
def blockTicks : Nat → BlockRun → BlockRun
  | 0, s => s
  | k + 1, s => blockTick (blockTicks k s)

/-- The indices of the elements that carry the class `active`. -/
def highlighted (s : BlockRun) : List Nat :=
  (List.range s.blockSteps.length).filter
    (fun i => (s.blockSteps.map (fun e => e.active)).getD i false)

/-! ## `animateSteps` -/

/-- A child of the step-list container; for a card built by `showStep` the markup is
`<strong>label</strong><pre>detail</pre>` and the class is `step-card`. -/
structure StepCard where
  innerHTML : Str
deriving DecidableEq, Repr

/-- The card built by `showStep` for one record. -/
def cardOf (step : StepRecord) : StepCard :=
  ⟨"<strong>".toList ++ step.step ++ "</strong><pre>".toList ++ step.detail ++
    "</pre>".toList⟩

/-- The state of one run of `animateSteps`: the argument `steps`, the children of
`animationDiv`, the closure variable `i` and the number of pending
`setTimeout(showStep, 800)` callbacks. -/
structure StepListRun where
  steps : List StepRecord
  animationDiv : List StepCard
  i : Nat
  timers : Nat
deriving DecidableEq, Repr

/-- The closure `showStep()`. -/
def showStep (s : StepListRun) : StepListRun :=
  if h : s.i < s.steps.length then
    let step := s.steps[s.i]
    let s1 : StepListRun := { s with animationDiv := s.animationDiv ++ [cardOf step] }
    let s2 : StepListRun := { s1 with i := s1.i + 1 }
    { s2 with timers := s2.timers + 1 }
  else s

/-- The state in which `animateSteps(steps)` finds the container, before any call of
`showStep`. -/
def stepListStart (steps : List StepRecord) (animationDiv : List StepCard) : StepListRun :=
  { steps := steps, animationDiv := animationDiv, i := 0, timers := 0 }

/-- The function `animateSteps(steps)`: `showStep` is called once directly. -/
def animateSteps (steps : List StepRecord) (animationDiv : List StepCard) : StepListRun :=
  showStep (stepListStart steps animationDiv)

/-- One timer tick of the step-list chain: a pending callback, if any, runs. -/
def showStepTick (s : StepListRun) : StepListRun :=
  if s.timers = 0 then s else showStep { s with timers := s.timers - 1 }

/-- The state after the `k`-th invocation of `showStep`: the first is the direct call made
by `animateSteps`, every later one is a timer callback. -/
def afterInvocations (steps : List StepRecord) (animationDiv : List StepCard) :
    Nat → StepListRun
  | 0 => stepListStart steps animationDiv
  | 1 => animateSteps steps animationDiv
  | k + 2 => showStepTick (afterInvocations steps animationDiv (k + 1))

/-! ## The page: locale switch and form submission -/

/-- The two values of `currentLang` that the language buttons pass to `switchLanguage`. -/
inductive Lang where
  | en
  | ar
deriving DecidableEq, Repr

/-- A request issued with `fetch`: its path, its method and the entries of its form data. -/
structure Request where
  url : String
  method : String
  body : List (Str × Str)
deriving DecidableEq, Repr

/-- The inline style `display` of every element, addressed by element id
(`document.getElementById(id).style.display`). -/
abbrev Displays := String → String

/-- The assignment `document.getElementById(id).style.display = value`. -/
def setDisplay (d : Displays) (id value : String) : Displays :=
  fun j => if j = id then value else d j

/-- A sequence of `style.display` assignments, carried out in the order of the list. -/
def applyDisplays (assignments : List (String × String)) (d : Displays) : Displays :=
  assignments.foldl (fun acc a => setDisplay acc a.1 a.2) d

/-- The state of the page that the handlers of `aes.js` read and write: the closure variable
`currentLang`, the inline `display` styles, the class lists, the placeholders of the text,
key and IV inputs (`none` when there is no element `iv-input`), the markup of the result
region, the children of the step-list container and of the block container, and the requests
sent so far. -/
structure Page where
  currentLang : Lang
  display : Displays
  classes : Document
  textPlaceholder : String
  keyPlaceholder : String
  ivPlaceholder : Option String
  resultHtml : Str
  animationDiv : List StepCard
  blocks : List BlockContainer
  requests : List Request

/-- The function `showEnglishFlowchartLabels()`. -/
def showEnglishFlowchartLabels (d : Displays) : Displays :=
  applyDisplays
    [("stage-input-header-en", "block"), ("stage-input-header-ar", "none"),
     ("stage-key-header-en", "block"), ("stage-key-header-ar", "none"),
     ("stage-mode-header-en", "block"), ("stage-mode-header-ar", "none"),
     ("stage-processing-header-en", "block"), ("stage-processing-header-ar", "none"),
     ("stage-output-header-en", "block"), ("stage-output-header-ar", "none"),
     ("input-box-title-en", "block"), ("input-box-title-ar", "none"),
     ("key-box-title-en", "block"), ("key-box-title-ar", "none"),
     ("mode-box-title-en", "block"), ("mode-box-title-ar", "none"),
     ("iv-box-title-en", "block"), ("iv-box-title-ar", "none"),
     ("output-box-title-en", "block"), ("output-box-title-ar", "none")]
    d

/-- The function `showArabicFlowchartLabels()`. -/
def showArabicFlowchartLabels (d : Displays) : Displays :=
  applyDisplays
    [("stage-input-header-en", "none"), ("stage-input-header-ar", "block"),
     ("stage-key-header-en", "none"), ("stage-key-header-ar", "block"),
     ("stage-mode-header-en", "none"), ("stage-mode-header-ar", "block"),
     ("stage-processing-header-en", "none"), ("stage-processing-header-ar", "block"),
     ("stage-output-header-en", "none"), ("stage-output-header-ar", "block"),
     ("input-box-title-en", "none"), ("input-box-title-ar", "block"),
     ("key-box-title-en", "none"), ("key-box-title-ar", "block"),
     ("mode-box-title-en", "none"), ("mode-box-title-ar", "block"),
     ("iv-box-title-en", "none"), ("iv-box-title-ar", "block"),
     ("output-box-title-en", "none"), ("output-box-title-ar", "block")]
    d

/-- The `display` assignments of the branch `lang === 'en'` of `switchLanguage` that precede
the placeholders. -/
def englishDisplays : List (String × String) :=
  [("instructions-en", "block"), ("text-label-en", "block"), ("key-label-en", "block"),
   ("mode-label-en", "block"), ("iv-label-en", "block"), ("buttons-en", "block"),
   ("text-counter-en", "inline"), ("key-counter-en", "inline"), ("iv-counter-en", "inline"),
   ("view-toggle-en", "flex"), ("flowchart-title-en", "block"), ("instructions-ar", "none"),
   ("text-label-ar", "none"), ("key-label-ar", "none"), ("mode-label-ar", "none"),
   ("iv-label-ar", "none"), ("buttons-ar", "none"), ("text-counter-ar", "none"),
   ("key-counter-ar", "none"), ("iv-counter-ar", "none"), ("view-toggle-ar", "none"),
   ("flowchart-title-ar", "none")]

/-- The `display` assignments of the other branch of `switchLanguage` that precede the
placeholders. -/
def arabicDisplays : List (String × String) :=
  [("instructions-ar", "block"), ("text-label-ar", "block"), ("key-label-ar", "block"),
   ("mode-label-ar", "block"), ("iv-label-ar", "block"), ("buttons-ar", "block"),
   ("text-counter-ar", "inline"), ("key-counter-ar", "inline"), ("iv-counter-ar", "inline"),
   ("view-toggle-ar", "flex"), ("flowchart-title-ar", "block"), ("instructions-en", "none"),
   ("text-label-en", "none"), ("key-label-en", "none"), ("mode-label-en", "none"),
   ("iv-label-en", "none"), ("buttons-en", "none"), ("text-counter-en", "none"),
   ("key-counter-en", "none"), ("iv-counter-en", "none"), ("view-toggle-en", "none"),
   ("flowchart-title-en", "none")]

/-- The function `switchLanguage(lang)`. -/
def switchLanguage (lang : Lang) (page : Page) : Page :=
  let p0 : Page := { page with currentLang := lang }
  if lang = Lang.en then
    let c1 := addActive "lang-en" p0.classes
    let c2 := removeActive "lang-ar" c1
    let d1 := applyDisplays englishDisplays p0.display
    let d2 := showEnglishFlowchartLabels d1
    let d3 := applyDisplays
      [("download-text-en", "inline"), ("download-text-ar", "none")] d2
    { p0 with
      classes := c2
      display := d3
      textPlaceholder := "Enter at least 16 bytes here..."
      keyPlaceholder := "MySecretKey123456789012345678901"
      ivPlaceholder := p0.ivPlaceholder.map (fun _ => "1234567890123456") }
  else
    let c1 := addActive "lang-ar" p0.classes
    let c2 := removeActive "lang-en" c1
    let d1 := applyDisplays arabicDisplays p0.display
    let d2 := showArabicFlowchartLabels d1
    let d3 := applyDisplays
      [("download-text-en", "none"), ("download-text-ar", "inline")] d2
    { p0 with
      classes := c2
      display := d3
      textPlaceholder := "أدخل 16 بايت على الأقل هنا..."
      keyPlaceholder := "مفتاحي_السري_123456789012345678901"
      ivPlaceholder := p0.ivPlaceholder.map (fun _ => "1234567890123456") }

/-- The number of bytes of the UTF-8 encoding of one character. -/
def utf8Size (c : Char) : Nat :=
  if c.toNat < 0x80 then 1 else if c.toNat < 0x800 then 2 else if c.toNat < 0x10000 then 3
  else 4

/-- The value `new TextEncoder().encode(text).length`. -/
def utf8Length (text : Str) : Nat := (text.map utf8Size).sum

/-- The error markup of the submit handler for the given locale and byte length. -/
def errorMsg (lang : Lang) (byteLength : Nat) : Str :=
  if lang = Lang.en then
    "<div class=\"error\"><strong>Error:</strong> Text must be at least 16 bytes long. ".toList ++
      "Current length: ".toList ++
      Nat.toDigits 10 byteLength ++
      " bytes. Please add more text.</div>".toList
  else
    "<div class=\"error\"><strong>خطأ:</strong> يجب أن يكون النص 16 بايت على الأقل. الطول الحالي: ".toList ++
      Nat.toDigits 10 byteLength ++
      " بايت. يرجى إضافة المزيد من النص.</div>".toList

/-- The submit handler of the form, from its start to the call of `fetch`: `text` is
`textInput.value`, `formData` the entries of `new FormData(form)` and `action` the value of
the submitter. -/
def submitHandler (page : Page) (text : Str) (formData : List (Str × Str)) (action : Str) :
    Page :=
  let byteLength := utf8Length text
  if byteLength < 16 then
    { page with resultHtml := errorMsg page.currentLang byteLength }
  else
    let formData := formData ++ [("action".toList, action)]
    let processingMsg : Str :=
      if page.currentLang = Lang.en then "Processing...".toList
      else "جاري المعالجة...".toList
    let p1 : Page := { page with resultHtml := processingMsg }
    let p2 : Page := { p1 with animationDiv := [] }
    let d1 := setDisplay p2.display "download-link" "none"
    let d2 := setDisplay d1 "view-controls" "none"
    let d3 := setDisplay d2 "flowchart-container" "none"
    let p3 : Page := { p2 with display := d3 }
    { p3 with requests := p3.requests ++ [⟨"/process", "POST", formData⟩] }

/-! ## Vocabulary of the properties -/

/-- The paired elements that `switchLanguage` shows and hides: the id of the English member
and the id of the Arabic member. -/
def localePairs : List (String × String) :=
  [("instructions-en", "instructions-ar"), ("text-label-en", "text-label-ar"),
   ("key-label-en", "key-label-ar"), ("mode-label-en", "mode-label-ar"),
   ("iv-label-en", "iv-label-ar"), ("buttons-en", "buttons-ar"),
   ("text-counter-en", "text-counter-ar"), ("key-counter-en", "key-counter-ar"),
   ("iv-counter-en", "iv-counter-ar"), ("view-toggle-en", "view-toggle-ar"),
   ("flowchart-title-en", "flowchart-title-ar"),
   ("stage-input-header-en", "stage-input-header-ar"),
   ("stage-key-header-en", "stage-key-header-ar"),
   ("stage-mode-header-en", "stage-mode-header-ar"),
   ("stage-processing-header-en", "stage-processing-header-ar"),
   ("stage-output-header-en", "stage-output-header-ar"),
   ("input-box-title-en", "input-box-title-ar"), ("key-box-title-en", "key-box-title-ar"),
   ("mode-box-title-en", "mode-box-title-ar"), ("iv-box-title-en", "iv-box-title-ar"),
   ("output-box-title-en", "output-box-title-ar"), ("download-text-en", "download-text-ar")]

/-- The member of a pair that belongs to a locale. -/
def localeMember (lang : Lang) (pair : String × String) : String :=
  if lang = Lang.en then pair.1 else pair.2

/-- The other locale. -/
def otherLang (lang : Lang) : Lang := if lang = Lang.en then Lang.ar else Lang.en

/-- An element is visible when its inline `display` is not `none`. -/
def visible (page : Page) (id : String) : Bool := page.display id != "none"

/-- The block numbers of a trace in order of first appearance. -/
def firstAppearance : List Str → List Str
  | [] => []
  | k :: ks => k :: (firstAppearance ks).filter (fun j => j != k)

/-- The block number of every record of the trace that the grouping loop files, in trace
order. -/
def blockNumbers (steps : List StepRecord) : List Str :=
  (steps.filter isBlockStep).filterMap (fun r => matchBlock r.step)

/-- The records of the trace filed under block number `d`, in trace order. -/
def recordsOfBlock (steps : List StepRecord) (d : Str) : List StepRecord :=
  steps.filter (fun r => isBlockStep r && (matchBlock r.step == some d))

/-- The block numbers of the containers that `createBlockProcessing` appends to `container`,
in order of creation. -/
def createdBlockNums (steps : List StepRecord) (container : List BlockContainer)
    (action : Str) : List Str :=
  ((createBlockProcessing steps container action).drop container.length).map
    (fun c => c.blockNum)

/-- The step elements that `createBlockProcessing` appended to the step boxes of the given
block containers, container after container and inside a container in order of appending.
Elements of class `block-step` of any other origin (markup carried by a label or a detail,
other parts of the page) are not listed: this is not the node list of
`document.querySelectorAll(".block-step")`. -/
def appendedStepEls (container : List BlockContainer) : List BlockStepEl :=
  container.flatMap (fun b => b.steps)

/-- The concatenation of the group step lists, the groups taken in order of first appearance
of their block number in the trace. -/
def groupsConcat (steps : List StepRecord) : List StepRecord :=
  (firstAppearance (blockNumbers steps)).flatMap
    (fun d => ((blockGroupsOf steps).get d).getD [])

/-- The records of the trace that are filed under some block number, in trace order. -/
def groupedRecords (steps : List StepRecord) : List StepRecord :=
  steps.filter (fun r => isBlockStep r && (matchBlock r.step).isSome)

/-- The 32 characters of `s` from index `i` on exist and all belong to `[A-F0-9]`. -/
def hexRunAt (s : Str) (i : Nat) : Bool :=
  ((s.drop i).take 32).length == 32 && ((s.drop i).take 32).all isHexChar

/-- The sixteen two-character cells cut from `s` from index `i` on, in source order. -/
def cellsAt (s : Str) (i : Nat) : List Str :=
  (List.range 16).map (fun k => (s.drop (i + 2 * k)).take 2)

/-- Once the block number changes, the earlier block number does not come back. -/
def noReturn : List Str → Bool
  | [] => true
  | [_] => true
  | k :: j :: ks => (k == j || !(j :: ks).contains k) && noReturn (j :: ks)

/-! ## Sample traces -/

/-- The record `Key Expansion`. -/
def recKey : StepRecord := ⟨"Key Expansion".toList, "...".toList⟩

/-- The record `Block 1 Encryption` of the scenario. -/
def recBlock1 : StepRecord :=
  ⟨"Block 1 Encryption".toList, "3243F6A8885A308D313198A2E0370734".toList⟩

/-- The record `Block 2 Encryption` of the scenario. -/
def recBlock2 : StepRecord :=
  ⟨"Block 2 Encryption".toList, "AE2D8A571E03AC9C9EB76FAC45AF8E51".toList⟩

/-- A second record of block 1. -/
def recBlock1Round : StepRecord := ⟨"Block 1 Round 1".toList, "SubBytes".toList⟩

/-- A block-relevant record without a block number. -/
def recUnnumbered : StepRecord := ⟨"Block Encryption".toList, "...".toList⟩

/-- A record whose detail holds text around a run of 34 uppercase hexadecimal characters. -/
def recLongRun : StepRecord :=
  ⟨"Block 3 Output".toList, "state: 3243F6A8885A308D313198A2E0370734AB end".toList⟩

/-- A record whose detail is hexadecimal in lower case. -/
def recLowercase : StepRecord :=
  ⟨"Block 4 Encryption".toList, "3243f6a8885a308d313198a2e0370734".toList⟩

/-- A node list of three step elements, none highlighted. -/
def nodesThree : List BlockStepEl := [⟨['a'], false⟩, ⟨['b'], false⟩, ⟨['c'], false⟩]

/-- A document in which every element carries both `active` and `completed`. -/
def domAllSet : Document := fun _ => ⟨true, true⟩

/-- A record whose block number is written with a leading zero. -/
def recBlock01 : StepRecord := ⟨"Block 01 Encryption".toList, "padding".toList⟩

/-- A trace with the block numbers `01`, `2`, `1`, in this order of first appearance. -/
def traceLeadingZero : List StepRecord := [recBlock01, recBlock2, recBlock1]

/-- A page in which every element is displayed and carries both classes, the locale is
Arabic, and nothing has been sent. -/
def pageSample : Page :=
  { currentLang := Lang.ar
    display := fun _ => "block"
    classes := domAllSet
    textPlaceholder := ""
    keyPlaceholder := ""
    ivPlaceholder := some ""
    resultHtml := []
    animationDiv := [⟨['x']⟩]
    blocks := []
    requests := [] }

/-- The scenario trace: key expansion, then blocks 1 and 2. -/
def traceScenario : List StepRecord := [recKey, recBlock1, recBlock2]

/-- The scenario trace with an unnumbered block record between the two blocks. -/
def traceUnnumbered : List StepRecord := [recKey, recBlock1, recUnnumbered, recBlock2]

/-- A trace in which block 2 appears before block 1. -/
def traceSwapped : List StepRecord := [recBlock2, recBlock1]

/-- A trace that returns to block 1 after a record of block 2. -/
def traceInterleaved : List StepRecord := [recBlock1, recBlock2, recBlock1Round]

/-! ## Lemmas on strings and objects -/

theorem includes_iff_contiguous (s pat : Str) : includes s pat = true ↔ pat <:+: s := by
  induction s with
  | nil => cases pat <;> simp [includes, List.isPrefixOf]
  | cons c cs ih =>
    simp only [includes, Bool.or_eq_true, ih, List.infix_cons_iff, List.isPrefixOf_iff_prefix]

theorem isBlockStep_iff (r : StepRecord) :
    isBlockStep r = true ↔
      (markerBlock <:+: r.step ∨ markerEncryption <:+: r.step ∨ markerDecryption <:+: r.step) := by
  simp only [isBlockStep, Bool.or_eq_true, includes_iff_contiguous, or_assoc]

namespace JSObject

theorem lookupProp_replaceValue {α : Type} (k : Str) (v : α) (j : Str) (ps : List (Str × α))
    (h : (lookupProp k ps).isSome = true) :
    lookupProp j (replaceValue k v ps) = if j = k then some v else lookupProp j ps := by
  induction ps with
  | nil => simp [lookupProp] at h
  | cons p ps ih =>
    by_cases hp : p.1 = k
    · by_cases hj : j = k
      · simp [replaceValue, lookupProp, hp, hj]
      · have hkj : ¬ k = j := fun e => hj e.symm
        simp [replaceValue, lookupProp, hp, hj, hkj]
    · have hrec : (lookupProp k ps).isSome = true := by
        simpa [lookupProp, hp] using h
      have hrv : replaceValue k v (p :: ps) = p :: replaceValue k v ps := by
        simp [replaceValue, hp]
      rw [hrv]
      by_cases hpj : p.1 = j
      · have hj : ¬ j = k := fun e => hp (hpj.trans e)
        simp [lookupProp, hpj, hj]
      · simp [lookupProp, hpj, ih hrec]

theorem lookupProp_append_single {α : Type} (k : Str) (v : α) (j : Str) (ps : List (Str × α))
    (h : lookupProp k ps = none) :
    lookupProp j (ps ++ [(k, v)]) = if j = k then some v else lookupProp j ps := by
  induction ps with
  | nil =>
    by_cases hj : j = k
    · simp [lookupProp, hj]
    · have hkj : ¬ k = j := fun e => hj e.symm
      simp [lookupProp, hj, hkj]
  | cons p ps ih =>
    by_cases hp : p.1 = k
    · simp [lookupProp, hp] at h
    · have hrec : lookupProp k ps = none := by simpa [lookupProp, hp] using h
      by_cases hpj : p.1 = j
      · have hj : ¬ j = k := fun e => hp (hpj.trans e)
        simp [lookupProp, hpj, hj]
      · simp [lookupProp, hpj, ih hrec]

theorem get_set {α : Type} (o : JSObject α) (k : Str) (v : α) (j : Str) :
    (o.set k v).get j = if j = k then some v else o.get j := by
  unfold set
  split
  · rename_i h
    exact lookupProp_replaceValue k v j o.props h
  · rename_i h
    exact lookupProp_append_single k v j o.props (by simpa [get] using h)

theorem lookupProp_isSome_iff {α : Type} (k : Str) (ps : List (Str × α)) :
    (lookupProp k ps).isSome = true ↔ k ∈ ps.map (fun p => p.1) := by
  induction ps with
  | nil => simp [lookupProp]
  | cons p ps ih =>
    by_cases hp : p.1 = k
    · constructor
      · intro _
        exact List.mem_map.2 ⟨p, List.mem_cons_self _ _, hp⟩
      · intro _
        simp only [lookupProp, hp, beq_self_eq_true, if_true, Option.isSome_some]
    · have hkp : ¬ k = p.1 := fun e => hp e.symm
      simp only [lookupProp, beq_iff_eq, hp, if_false, ih, List.map_cons, List.mem_cons, hkp,
        false_or]

theorem map_fst_replaceValue {α : Type} (k : Str) (v : α) (ps : List (Str × α)) :
    (replaceValue k v ps).map (fun p => p.1) = ps.map (fun p => p.1) := by
  induction ps with
  | nil => rfl
  | cons p ps ih =>
    by_cases hp : p.1 = k
    · simp [replaceValue, hp]
    · simp [replaceValue, hp, ih]

theorem get_isSome_iff {α : Type} (o : JSObject α) (k : Str) :
    (o.get k).isSome = true ↔ k ∈ o.createdKeys :=
  lookupProp_isSome_iff k o.props

theorem createdKeys_set {α : Type} (o : JSObject α) (k : Str) (v : α) :
    (o.set k v).createdKeys = if k ∈ o.createdKeys then o.createdKeys else o.createdKeys ++ [k] := by
  unfold set
  by_cases h : (o.get k).isSome = true
  · rw [if_pos h, if_pos ((get_isSome_iff o k).1 h)]
    exact map_fst_replaceValue k v o.props
  · rw [if_neg h, if_neg (fun hk => h ((get_isSome_iff o k).2 hk))]
    simp [createdKeys]

end JSObject

theorem get_groupStep (o : JSObject (List StepRecord)) (step : StepRecord) (d : Str) :
    (groupStep o step).get d =
      if matchBlock step.step = some d then some ((o.get d).getD [] ++ [step])
      else o.get d := by
  unfold groupStep
  cases hm : matchBlock step.step with
  | none => simp
  | some b =>
    by_cases hd : d = b
    · subst hd
      cases ho : o.get d <;> simp [JSObject.get_set, ho]
    · have hbd : ¬ b = d := fun e => hd e.symm
      cases ho : o.get b <;> simp [JSObject.get_set, hd, hbd, ho]

theorem get_foldl_groupStep (l : List StepRecord) (o : JSObject (List StepRecord)) (d : Str) :
    (l.foldl groupStep o).get d =
      if l.filter (fun r => matchBlock r.step == some d) = [] then o.get d
      else some ((o.get d).getD [] ++ l.filter (fun r => matchBlock r.step == some d)) := by
  induction l generalizing o with
  | nil => simp
  | cons r l ih =>
    rw [List.foldl_cons, ih, get_groupStep]
    by_cases hm : matchBlock r.step = some d
    · simp [hm, List.filter_cons]
    · simp [hm, List.filter_cons]

theorem recordsOfBlock_eq (steps : List StepRecord) (d : Str) :
    (steps.filter isBlockStep).filter (fun r => matchBlock r.step == some d) =
      recordsOfBlock steps d := by
  simp only [recordsOfBlock, List.filter_filter]
  congr 1
  funext r
  exact Bool.and_comm _ _

theorem get_blockGroupsOf (steps : List StepRecord) (d : Str) :
    (blockGroupsOf steps).get d =
      if recordsOfBlock steps d = [] then none else some (recordsOfBlock steps d) := by
  unfold blockGroupsOf
  rw [get_foldl_groupStep, recordsOfBlock_eq]
  simp [JSObject.get, JSObject.empty, JSObject.lookupProp]

theorem groupStep_of_no_match (o : JSObject (List StepRecord)) (r : StepRecord)
    (h : matchBlock r.step = none) : groupStep o r = o := by
  simp [groupStep, h]

theorem blockGroupsOf_insert_unmatched (pre post : List StepRecord) (r : StepRecord)
    (h : matchBlock r.step = none) :
    blockGroupsOf (pre ++ r :: post) = blockGroupsOf (pre ++ post) := by
  unfold blockGroupsOf
  by_cases hb : isBlockStep r = true
  · simp [List.filter_append, List.filter_cons, hb, List.foldl_append,
      groupStep_of_no_match _ r h]
  · simp [List.filter_append, List.filter_cons, hb, List.foldl_append]

theorem createdKeys_groupStep (o : JSObject (List StepRecord)) (step : StepRecord) :
    (groupStep o step).createdKeys =
      match matchBlock step.step with
      | none => o.createdKeys
      | some d => if d ∈ o.createdKeys then o.createdKeys else o.createdKeys ++ [d] := by
  unfold groupStep
  cases hm : matchBlock step.step with
  | none => rfl
  | some d =>
    by_cases hd : d ∈ o.createdKeys
    · have hs : (o.get d).isSome = true := (JSObject.get_isSome_iff o d).2 hd
      have hn : ¬ (o.get d).isNone = true := by
        cases ho : o.get d <;> simp_all
      simp [hn, JSObject.createdKeys_set, hd]
    · have hn : (o.get d).isNone = true := by
        cases ho : o.get d with
        | none => rfl
        | some g => exact absurd ((JSObject.get_isSome_iff o d).1 (by simp [ho])) hd
      simp [hn, JSObject.createdKeys_set, hd]

theorem createdKeys_foldl_groupStep (l : List StepRecord) (o : JSObject (List StepRecord)) :
    (l.foldl groupStep o).createdKeys =
      o.createdKeys ++
        (firstAppearance (l.filterMap (fun r => matchBlock r.step))).filter
          (fun k => !decide (k ∈ o.createdKeys)) := by
  induction l generalizing o with
  | nil => simp [firstAppearance]
  | cons r l ih =>
    rw [List.foldl_cons, ih, createdKeys_groupStep]
    cases hm : matchBlock r.step with
    | none => simp [List.filterMap_cons, hm]
    | some d =>
      by_cases hd : d ∈ o.createdKeys
      · simp only [List.filterMap_cons, hm, firstAppearance, List.filter_cons, hd, if_true,
          decide_True, Bool.not_true, List.filter_filter]
        congr 1
        apply List.filter_congr
        intro k _
        by_cases hk : k ∈ o.createdKeys
        · simp [hk]
        · have : k ≠ d := fun e => hk (e ▸ hd)
          simp [hk, this]
      · simp only [List.filterMap_cons, hm, firstAppearance, List.filter_cons, hd, if_false,
          decide_False, Bool.not_false, if_true, List.filter_filter, List.append_assoc,
          List.singleton_append]
        congr 2
        apply List.filter_congr
        intro k _
        by_cases hk : k ∈ o.createdKeys
        · simp [hk]
        · by_cases hkd : k = d
          · simp [hk, hkd]
          · simp [hk, hkd]

theorem createdKeys_blockGroupsOf (steps : List StepRecord) :
    (blockGroupsOf steps).createdKeys = firstAppearance (blockNumbers steps) := by
  unfold blockGroupsOf blockNumbers
  rw [createdKeys_foldl_groupStep]
  simp [JSObject.empty, JSObject.createdKeys]

theorem foldl_appendBlock (g : JSObject (List StepRecord)) (ks : List Str)
    (container : List BlockContainer) :
    ks.foldl (appendBlock g) container =
      container ++ ks.map (fun d => ⟨d, ((g.get d).getD []).map stepElOf⟩) := by
  induction ks generalizing container with
  | nil => simp
  | cons k ks ih => simp [List.foldl_cons, ih, appendBlock]

theorem createBlockProcessing_eq (steps : List StepRecord) (container : List BlockContainer)
    (action : Str) :
    createBlockProcessing steps container action =
      container ++ (blockGroupsOf steps).keys.map
        (fun d => ⟨d, (recordsOfBlock steps d).map stepElOf⟩) := by
  have hget : ∀ d, ((blockGroupsOf steps).get d).getD [] = recordsOfBlock steps d := by
    intro d
    rw [get_blockGroupsOf]
    split
    · rename_i h; simp [h]
    · simp
  unfold createBlockProcessing
  by_cases h : (steps.filter isBlockStep).length = 0
  · have hnil : steps.filter isBlockStep = [] := List.length_eq_zero.1 h
    simp [h, blockGroupsOf, hnil, JSObject.keys, JSObject.createdKeys, JSObject.empty,
      JSObject.ownKeyOrder]
  · simp only [h, if_false]
    rw [foldl_appendBlock]
    simp only [← blockGroupsOf.eq_1, hget]

/-! ## Order of the groups -/

theorem mem_firstAppearance (ks : List Str) (k : Str) : k ∈ firstAppearance ks ↔ k ∈ ks := by
  induction ks with
  | nil => simp [firstAppearance]
  | cons j ks ih =>
    by_cases hk : k = j
    · simp [firstAppearance, hk]
    · simp [firstAppearance, hk, List.mem_filter, ih]

theorem nodup_firstAppearance (ks : List Str) : (firstAppearance ks).Nodup := by
  induction ks with
  | nil => simp [firstAppearance]
  | cons j ks ih =>
    simp only [firstAppearance, List.nodup_cons]
    exact ⟨by simp [List.mem_filter], ih.filter _⟩

theorem firstAppearance_filter_ne_of_not_mem (ks : List Str) (k : Str) (h : k ∉ ks) :
    (firstAppearance ks).filter (fun j => j != k) = firstAppearance ks := by
  rw [List.filter_eq_self]
  intro j hj
  have hjk : j ≠ k := fun e => h (e ▸ (mem_firstAppearance ks j).1 hj)
  simpa using hjk

theorem ownKeyOrder_append_eq (a b : List Str) (ha : ∀ k ∈ a, JSObject.isArrayIndex k = true)
    (hsorted : a.Pairwise (fun x y => JSObject.decimalValue x < JSObject.decimalValue y))
    (hb : ∀ k ∈ b, JSObject.isArrayIndex k = false) :
    JSObject.ownKeyOrder (a ++ b) = a ++ b := by
  have h1 : (a ++ b).filter JSObject.isArrayIndex = a := by
    rw [List.filter_append, List.filter_eq_self.2 ha, List.filter_eq_nil_iff.2, List.append_nil]
    intro k hk
    simp [hb k hk]
  have h2 : (a ++ b).filter (fun k => !JSObject.isArrayIndex k) = b := by
    rw [List.filter_append, List.filter_eq_nil_iff.2, List.filter_eq_self.2, List.nil_append]
    · intro k hk
      simp [hb k hk]
    · intro k hk
      simp [ha k hk]
  have h3 : List.Sorted (fun x y => JSObject.decimalValue x ≤ JSObject.decimalValue y) a :=
    hsorted.imp (fun h => Nat.le_of_lt h)
  unfold JSObject.ownKeyOrder
  rw [h1, h2, h3.insertionSort_eq]

theorem keys_blockGroupsOf (steps : List StepRecord) :
    (blockGroupsOf steps).keys = JSObject.ownKeyOrder (firstAppearance (blockNumbers steps)) := by
  rw [JSObject.keys, createdKeys_blockGroupsOf]

theorem appendedStepEls_append (c₁ c₂ : List BlockContainer) :
    appendedStepEls (c₁ ++ c₂) = appendedStepEls c₁ ++ appendedStepEls c₂ := by
  simp [appendedStepEls]

theorem appendedStepEls_map (ks : List Str) (f : Str → List BlockStepEl) :
    appendedStepEls (ks.map (fun d => ⟨d, f d⟩)) = ks.flatMap f := by
  induction ks with
  | nil => rfl
  | cons k ks ih =>
    simp only [appendedStepEls, List.map_cons, List.flatMap_cons] at ih ⊢
    rw [ih]

/-! ## Concatenation of the groups -/

theorem flatMap_extract {β : Type} (f : Str → List β) (K : List Str) (hK : K.Nodup) (k : Str)
    (hk : k ∈ K) :
    (f k ++ (K.filter (fun j => j != k)).flatMap f).Perm (K.flatMap f) := by
  induction K with
  | nil => simp at hk
  | cons a K ih =>
    rw [List.nodup_cons] at hK
    by_cases hak : a = k
    · subst hak
      have hself : K.filter (fun j => j != a) = K := by
        rw [List.filter_eq_self]
        intro j hj
        have : j ≠ a := fun e => hK.1 (e ▸ hj)
        simpa using this
      simp [List.filter_cons, hself]
    · have hkK : k ∈ K := by
        rcases List.mem_cons.1 hk with h | h
        · exact absurd h.symm hak
        · exact h
      have hstep := ih hK.2 hkK
      simp only [List.filter_cons, bne_iff_ne, ne_eq, hak, not_false_eq_true, if_true,
        List.flatMap_cons, decide_True]
      calc f k ++ (f a ++ (K.filter (fun j => j != k)).flatMap f)
          = (f k ++ f a) ++ (K.filter (fun j => j != k)).flatMap f := by
            rw [List.append_assoc]
        _ |>.Perm ((f a ++ f k) ++ (K.filter (fun j => j != k)).flatMap f) :=
            List.Perm.append_right _ List.perm_append_comm
        _ = f a ++ (f k ++ (K.filter (fun j => j != k)).flatMap f) := by
            rw [List.append_assoc]
        _ |>.Perm (f a ++ K.flatMap f) := List.Perm.append_left _ hstep

theorem filter_block_eq_nil (l : List StepRecord) (k : Str)
    (h : k ∉ l.filterMap (fun r => matchBlock r.step)) :
    l.filter (fun r => matchBlock r.step == some k) = [] := by
  rw [List.filter_eq_nil_iff]
  intro r hr hk
  exact h (List.mem_filterMap.2 ⟨r, hr, by simpa using hk⟩)

theorem flatMap_filter_cons_ne (r : StepRecord) (l : List StepRecord) (k : Str) (K : List Str)
    (hm : matchBlock r.step = some k) (hK : ∀ d ∈ K, d ≠ k) :
    K.flatMap (fun d => (r :: l).filter (fun x => matchBlock x.step == some d)) =
      K.flatMap (fun d => l.filter (fun x => matchBlock x.step == some d)) := by
  apply List.flatMap_congr
  intro d hd
  have hkd : ¬ k = d := fun e => hK d hd e.symm
  simp [List.filter_cons, hm, hkd]

theorem concat_cons_matched (r : StepRecord) (l : List StepRecord) (k : Str)
    (hm : matchBlock r.step = some k) :
    (firstAppearance ((r :: l).filterMap (fun x => matchBlock x.step))).flatMap
        (fun d => (r :: l).filter (fun x => matchBlock x.step == some d)) =
      r :: (l.filter (fun x => matchBlock x.step == some k) ++
        ((firstAppearance (l.filterMap (fun x => matchBlock x.step))).filter
          (fun j => j != k)).flatMap
            (fun d => l.filter (fun x => matchBlock x.step == some d))) := by
  have hne : ∀ d ∈ (firstAppearance (l.filterMap (fun x => matchBlock x.step))).filter
      (fun j => j != k), d ≠ k := by
    intro d hd
    simpa using (List.mem_filter.1 hd).2
  simp only [List.filterMap_cons, hm, firstAppearance, List.flatMap_cons]
  rw [flatMap_filter_cons_ne r l k _ hm hne]
  simp [List.filter_cons, hm]

theorem concat_perm (l : List StepRecord) :
    ((firstAppearance (l.filterMap (fun r => matchBlock r.step))).flatMap
        (fun d => l.filter (fun r => matchBlock r.step == some d))).Perm
      (l.filter (fun r => (matchBlock r.step).isSome)) := by
  induction l with
  | nil => simp [firstAppearance]
  | cons r l ih =>
    cases hm : matchBlock r.step with
    | none => simpa [List.filterMap_cons, List.filter_cons, hm] using ih
    | some k =>
      rw [concat_cons_matched r l k hm]
      have hgr : (r :: l).filter (fun x => (matchBlock x.step).isSome) =
          r :: l.filter (fun x => (matchBlock x.step).isSome) := by
        simp [List.filter_cons, hm]
      rw [hgr]
      apply List.Perm.cons
      by_cases hk : k ∈ l.filterMap (fun x => matchBlock x.step)
      · exact (flatMap_extract _ _ (nodup_firstAppearance _) k
          ((mem_firstAppearance _ k).2 hk)).trans ih
      · rw [filter_block_eq_nil l k hk, firstAppearance_filter_ne_of_not_mem _ k hk,
          List.nil_append]
        exact ih

theorem noReturn_tail (k : Str) (ks : List Str) (h : noReturn (k :: ks) = true) :
    noReturn ks = true := by
  cases ks with
  | nil => rfl
  | cons j ks =>
    simp only [noReturn, Bool.and_eq_true] at h
    exact h.2

theorem noReturn_head (k : Str) (ks : List Str) (h : noReturn (k :: ks) = true)
    (hk : k ∈ ks) : ∃ ks', ks = k :: ks' := by
  cases ks with
  | nil => simp at hk
  | cons j ks =>
    simp only [noReturn, Bool.and_eq_true, Bool.or_eq_true, beq_iff_eq] at h
    rcases h.1 with h1 | h1
    · exact ⟨ks, by rw [h1]⟩
    · simp at h1
      simp at hk
      rcases hk with hk | hk
      · exact absurd hk h1.1
      · exact absurd hk h1.2

theorem concat_eq (l : List StepRecord)
    (h : noReturn (l.filterMap (fun r => matchBlock r.step)) = true) :
    (firstAppearance (l.filterMap (fun r => matchBlock r.step))).flatMap
        (fun d => l.filter (fun r => matchBlock r.step == some d)) =
      l.filter (fun r => (matchBlock r.step).isSome) := by
  induction l with
  | nil => simp [firstAppearance]
  | cons r l ih =>
    cases hm : matchBlock r.step with
    | none =>
      simp only [List.filterMap_cons, hm] at h
      simpa [List.filterMap_cons, List.filter_cons, hm] using ih h
    | some k =>
      simp only [List.filterMap_cons, hm] at h
      have ih' := ih (noReturn_tail k _ h)
      rw [concat_cons_matched r l k hm]
      have hgr : (r :: l).filter (fun x => (matchBlock x.step).isSome) =
          r :: l.filter (fun x => (matchBlock x.step).isSome) := by
        simp [List.filter_cons, hm]
      rw [hgr]
      congr 1
      by_cases hk : k ∈ l.filterMap (fun x => matchBlock x.step)
      · obtain ⟨ks', hks⟩ := noReturn_head k _ h hk
        rw [hks, firstAppearance, List.flatMap_cons] at ih'
        rw [hks, firstAppearance]
        have hff : ((k :: (firstAppearance ks').filter (fun j => j != k)).filter
            (fun j => j != k)) = (firstAppearance ks').filter (fun j => j != k) := by
          simp [List.filter_cons, List.filter_filter]
        rw [hff]
        exact ih'
      · rw [filter_block_eq_nil l k hk, firstAppearance_filter_ne_of_not_mem _ k hk,
          List.nil_append]
        exact ih'

theorem groupsConcat_eq (steps : List StepRecord) :
    groupsConcat steps =
      (firstAppearance ((steps.filter isBlockStep).filterMap (fun r => matchBlock r.step))).flatMap
        (fun d => (steps.filter isBlockStep).filter (fun r => matchBlock r.step == some d)) := by
  unfold groupsConcat blockNumbers
  apply List.flatMap_congr
  intro d _
  rw [get_blockGroupsOf, recordsOfBlock_eq]
  split
  · rename_i h; simp [h]
  · simp

theorem groupedRecords_eq (steps : List StepRecord) :
    (steps.filter isBlockStep).filter (fun r => (matchBlock r.step).isSome) =
      groupedRecords steps := by
  simp only [groupedRecords, List.filter_filter]
  congr 1
  funext r
  exact Bool.and_comm _ _

/-! ## Extraction of the block number -/

theorem digitChar_spec (m : Nat) (h : m < 10) :
    isDigitChar (Nat.digitChar m) = true ∧ (Nat.digitChar m).toNat - '0'.toNat = m := by
  interval_cases m <;> decide

theorem decimalValue_append_single (xs : Str) (c : Char) :
    JSObject.decimalValue (xs ++ [c]) =
      10 * JSObject.decimalValue xs + (c.toNat - '0'.toNat) := by
  simp [JSObject.decimalValue, List.foldl_append]

theorem toDigitsCore_spec (fuel : Nat) : ∀ (n : Nat) (ds : Str), n < fuel →
    Nat.toDigitsCore 10 fuel n ds = Nat.toDigitsCore 10 fuel n [] ++ ds ∧
    Nat.toDigitsCore 10 fuel n [] ≠ [] ∧
    (∀ c ∈ Nat.toDigitsCore 10 fuel n [], isDigitChar c = true) ∧
    JSObject.decimalValue (Nat.toDigitsCore 10 fuel n []) = n := by
  induction fuel with
  | zero => intro n ds h; omega
  | succ fuel ih =>
    intro n ds hn
    have hd := digitChar_spec (n % 10) (Nat.mod_lt _ (by decide))
    by_cases h0 : n / 10 = 0
    · have hlt : n < 10 := by omega
      have hmod : n % 10 = n := Nat.mod_eq_of_lt hlt
      simp only [Nat.toDigitsCore, h0, if_true]
      refine ⟨rfl, by simp, ?_, ?_⟩
      · intro c hc
        rw [List.mem_singleton] at hc
        rw [hc]; exact hd.1
      · have hv := decimalValue_append_single [] (Nat.digitChar (n % 10))
        rw [List.nil_append, hd.2] at hv
        rw [hv, hmod]
        simp [JSObject.decimalValue]
    · have hlt : n / 10 < fuel := by omega
      obtain ⟨h1, _, _, _⟩ := ih (n / 10) (Nat.digitChar (n % 10) :: ds) hlt
      obtain ⟨h2, hne, hall, hval⟩ := ih (n / 10) [Nat.digitChar (n % 10)] hlt
      simp only [Nat.toDigitsCore, h0, if_false]
      rw [h1, h2]
      refine ⟨by simp, by simp, ?_, ?_⟩
      · intro c hc
        rcases List.mem_append.1 hc with hc | hc
        · exact hall c hc
        · rw [List.mem_singleton] at hc
          rw [hc]; exact hd.1
      · rw [decimalValue_append_single, hval, hd.2]
        omega

theorem toDigits_spec (n : Nat) :
    Nat.toDigits 10 n ≠ [] ∧ (∀ c ∈ Nat.toDigits 10 n, isDigitChar c = true) ∧
    JSObject.decimalValue (Nat.toDigits 10 n) = n :=
  (toDigitsCore_spec (n + 1) n [] (Nat.lt_succ_self n)).2

theorem takeWhile_append_stop (p : Char → Bool) (ds post : Str) (hds : ∀ c ∈ ds, p c = true)
    (hpost : ∀ c, post.head? = some c → p c = false) :
    (ds ++ post).takeWhile p = ds := by
  induction ds with
  | nil =>
    cases post with
    | nil => rfl
    | cons c post => simp [List.takeWhile_cons, hpost c rfl]
  | cons d ds ih =>
    have hd : p d = true := hds d (List.mem_cons_self _ _)
    simp only [List.cons_append, List.takeWhile_cons, hd, if_true]
    rw [ih (fun c hc => hds c (List.mem_cons_of_mem _ hc))]

theorem matchBlockAt_blockLit (ds post : Str) (hne : ds ≠ [])
    (hds : ∀ c ∈ ds, isDigitChar c = true)
    (hpost : ∀ c, post.head? = some c → isDigitChar c = false) :
    matchBlockAt (blockLit ++ ds ++ post) = some ds := by
  have hpre : blockLit.isPrefixOf (blockLit ++ ds ++ post) = true := by
    rw [ List.isPrefixOf_iff_prefix, List.append_assoc]
    exact List.prefix_append _ _
  have hdrop : (blockLit ++ ds ++ post).drop blockLit.length = ds ++ post := by
    rw [List.append_assoc, List.drop_left]
  unfold matchBlockAt
  rw [if_pos hpre]
  simp only [hdrop, takeWhile_append_stop isDigitChar ds post hds hpost]
  cases ds with
  | nil => exact absurd rfl hne
  | cons d ds => rfl

theorem matchBlockAt_none_of_no_occurrence (s : Str)
    (h : ∀ b c, s = blockLit ++ c :: b → isDigitChar c = false) :
    matchBlockAt s = none := by
  unfold matchBlockAt
  split
  · rename_i hp
    obtain ⟨q, hq⟩ := List.isPrefixOf_iff_prefix.1 hp
    have hdrop : s.drop blockLit.length = q := by
      rw [← hq, List.drop_left]
    rw [hdrop]
    cases q with
    | nil => rfl
    | cons c q =>
      have hc := h q c hq.symm
      simp [List.takeWhile_cons, hc]
  · rfl

theorem matchBlock_none_of_no_occurrence (s : Str)
    (h : ∀ a b c, s = a ++ blockLit ++ c :: b → isDigitChar c = false) :
    matchBlock s = none := by
  induction s with
  | nil => rfl
  | cons x s ih =>
    have hat : matchBlockAt (x :: s) = none :=
      matchBlockAt_none_of_no_occurrence (x :: s) (fun b c hs => h [] b c (by simpa using hs))
    have hrest : matchBlock s = none :=
      ih (fun a b c hs => h (x :: a) b c (by simp [hs]))
    simp only [matchBlock, hat, hrest]

theorem matchBlockAt_straddle (x : Char) (pre rest : Str)
    (h : ∀ b c, x :: pre = blockLit ++ c :: b → isDigitChar c = false) :
    matchBlockAt (x :: pre ++ 'B' :: rest) = none := by
  apply matchBlockAt_none_of_no_occurrence
  intro b c heq
  rcases pre with _ | ⟨p1, _ | ⟨p2, _ | ⟨p3, _ | ⟨p4, _ | ⟨p5, _ | ⟨p6, pre⟩⟩⟩⟩⟩⟩
  · simp [blockLit] at heq
  · simp [blockLit] at heq
  · simp [blockLit] at heq
  · simp [blockLit] at heq
  · simp [blockLit] at heq
  · simp only [blockLit, List.cons_append, List.nil_append, List.cons.injEq] at heq
    rw [← heq.2.2.2.2.2.2.1]
    decide
  · simp only [blockLit, List.cons_append, List.nil_append, List.cons.injEq] at heq
    obtain ⟨h0, h1, h2, h3, h4, h5, h6, _⟩ := heq
    apply h pre c
    simp [blockLit, h0, h1, h2, h3, h4, h5, h6]

theorem matchBlock_skip (pre rest : Str)
    (h : ∀ a b c, pre = a ++ blockLit ++ c :: b → isDigitChar c = false) :
    matchBlock (pre ++ 'B' :: rest) = matchBlock ('B' :: rest) := by
  induction pre with
  | nil => rfl
  | cons x pre ih =>
    have hat : matchBlockAt (x :: pre ++ 'B' :: rest) = none :=
      matchBlockAt_straddle x pre rest (fun b c hs => h [] b c (by simpa using hs))
    have hrest := ih (fun a b c hs => h (x :: a) b c (by simp [hs]))
    simp only [List.cons_append] at hat ⊢
    simp only [matchBlock, hat]
    exact hrest

theorem matchBlock_label (pre ds post : Str)
    (hpre : ∀ a b c, pre = a ++ blockLit ++ c :: b → isDigitChar c = false)
    (hne : ds ≠ []) (hds : ∀ c ∈ ds, isDigitChar c = true)
    (hpost : ∀ c, post.head? = some c → isDigitChar c = false) :
    matchBlock (pre ++ blockLit ++ ds ++ post) = some ds := by
  have hat := matchBlockAt_blockLit ds post hne hds hpost
  have hshape : pre ++ blockLit ++ ds ++ post =
      pre ++ 'B' :: (['l', 'o', 'c', 'k', ' '] ++ ds ++ post) := by
    simp [blockLit]
  have hshape2 : blockLit ++ ds ++ post = 'B' :: (['l', 'o', 'c', 'k', ' '] ++ ds ++ post) := by
    simp [blockLit]
  rw [hshape, matchBlock_skip pre _ hpre, ← hshape2]
  rw [hshape2] at hat ⊢
  simp only [matchBlock, hat]

theorem isBlockStep_of_matchBlock (r : StepRecord) (d : Str) (h : matchBlock r.step = some d) :
    isBlockStep r = true := by
  have key : ∀ s : Str, matchBlock s = some d → includes s markerBlock = true := by
    intro s
    induction s with
    | nil => intro hs; simp [matchBlock] at hs
    | cons x s ih =>
      intro hs
      simp only [matchBlock] at hs
      cases hat : matchBlockAt (x :: s) with
      | none =>
        rw [hat] at hs
        simp only [includes, Bool.or_eq_true]
        exact Or.inr (ih hs)
      | some e =>
        have hp : blockLit.isPrefixOf (x :: s) = true := by
          unfold matchBlockAt at hat
          split at hat
          · assumption
          · cases hat
        have hpre : markerBlock <+: (x :: s) :=
          List.IsPrefix.trans ⟨[' '], rfl⟩ ( List.isPrefixOf_iff_prefix.1 hp)
        simp only [includes, Bool.or_eq_true]
        exact Or.inl ( List.isPrefixOf_iff_prefix.2 hpre)
  simp [isBlockStep, key r.step h]

theorem createBlockProcessing_single (r : StepRecord) (d : Str) (h : matchBlock r.step = some d)
    (action : Str) :
    createBlockProcessing [r] [] action = [⟨d, [stepElOf r]⟩] := by
  have hb := isBlockStep_of_matchBlock r d h
  have hnum : firstAppearance (blockNumbers [r]) = [d] := by
    simp [blockNumbers, hb, h, firstAppearance]
  have hord : JSObject.ownKeyOrder [d] = [d] := by
    cases hi : JSObject.isArrayIndex d <;> simp [JSObject.ownKeyOrder, hi]
  rw [createBlockProcessing_eq, keys_blockGroupsOf, hnum, hord]
  simp [recordsOfBlock, hb, h]

/-! ## The matrix display -/

theorem le_length_takeWhile_iff (p : Char → Bool) (s : Str) (n : Nat) :
    n ≤ (s.takeWhile p).length ↔ ((s.take n).length = n ∧ (s.take n).all p = true) := by
  induction s generalizing n with
  | nil => cases n <;> simp
  | cons c s ih =>
    cases n with
    | zero => simp
    | succ n =>
      by_cases hc : p c = true
      · simp only [List.takeWhile_cons, hc, if_true, List.length_cons, Nat.add_le_add_iff_right,
          ih, List.take_succ_cons, List.all_cons, Bool.true_and, Nat.add_right_cancel_iff]
      · simp [List.takeWhile_cons, hc]

theorem matchHexAt_eq (s : Str) :
    matchHexAt s = if hexRunAt s 0 = true then some (s.takeWhile isHexChar) else none := by
  have h := le_length_takeWhile_iff isHexChar s 32
  unfold matchHexAt hexRunAt
  simp only [List.drop_zero, Bool.and_eq_true, beq_iff_eq]
  by_cases h32 : 32 ≤ (s.takeWhile isHexChar).length
  · rw [if_pos h32, if_pos (h.1 h32)]
  · rw [if_neg h32, if_neg (fun hh => h32 (h.2 hh))]

theorem hexRunAt_cons (c : Char) (s : Str) (i : Nat) :
    hexRunAt (c :: s) (i + 1) = hexRunAt s i := by
  simp [hexRunAt, substr]

theorem matchHex_none (s : Str) (h : ∀ i, hexRunAt s i = false) : matchHex s = none := by
  induction s with
  | nil => rfl
  | cons c s ih =>
    have h0 : matchHexAt (c :: s) = none := by
      rw [matchHexAt_eq, h 0]; rfl
    have hs : matchHex s = none := ih (fun i => by rw [← hexRunAt_cons c s i]; exact h (i + 1))
    simp only [matchHex, h0, hs]

theorem matchHex_leftmost (s : Str) (i : Nat) (hi : hexRunAt s i = true)
    (hmin : ∀ j, j < i → hexRunAt s j = false) :
    matchHex s = some ((s.drop i).takeWhile isHexChar) := by
  induction i generalizing s with
  | zero =>
    cases s with
    | nil => simp [hexRunAt, substr] at hi
    | cons c s =>
      have h0 : matchHexAt (c :: s) = some ((c :: s).takeWhile isHexChar) := by
        rw [matchHexAt_eq, if_pos hi]
      simp only [matchHex, h0, List.drop_zero]
  | succ i ih =>
    cases s with
    | nil => simp [hexRunAt, substr] at hi
    | cons c s =>
      have h0 : matchHexAt (c :: s) = none := by
        rw [matchHexAt_eq, hmin 0 (Nat.succ_pos i)]; rfl
      rw [hexRunAt_cons] at hi
      have hrec := ih s hi (fun j hj => by
        rw [← hexRunAt_cons c s j]; exact hmin (j + 1) (Nat.succ_lt_succ hj))
      simp only [matchHex, h0, List.drop_succ_cons]
      exact hrec

theorem formatAsMatrixLoop_eq (hex : Str) (h : 32 ≤ hex.length) :
    ∀ (n j : Nat) (acc : Str), j + n = 16 →
      formatAsMatrixLoop hex (2 * j) acc =
        acc ++ ((List.range' j n).map (fun k => cellHtml (substr hex (2 * k) 2))).flatten := by
  intro n
  induction n with
  | zero =>
    intro j acc hj
    rw [formatAsMatrixLoop, if_neg (by omega)]
    simp
  | succ n ih =>
    intro j acc hj
    rw [formatAsMatrixLoop, if_pos (by omega)]
    have h2 : 2 * j + 2 = 2 * (j + 1) := by omega
    rw [h2, ih (j + 1) _ (by omega), List.range'_succ]
    simp [List.append_assoc]

theorem formatAsMatrix_eq (hex : Str) (h : 32 ≤ hex.length) :
    formatAsMatrix hex =
      ((cellsAt hex 0).map
        (fun cell => "<div class=\"matrix-cell\">".toList ++ cell ++ "</div>".toList)).flatten := by
  have := formatAsMatrixLoop_eq hex h 16 0 [] rfl
  simp only [Nat.mul_zero, List.nil_append] at this
  rw [formatAsMatrix, this, cellsAt, List.range_eq_range', List.map_map]
  simp [Function.comp_def, substr, cellHtml]

theorem substr_eq_of_isPrefixed (l₁ l₂ : Str) (a b : Nat) (hp : l₁ <+: l₂) (hab : a + b ≤ l₁.length) :
    substr l₁ a b = substr l₂ a b := by
  obtain ⟨t, rfl⟩ := hp
  unfold substr
  rw [List.drop_append_of_le_length (by omega), List.take_append_of_le_length]
  rw [List.length_drop]
  omega

theorem cellsAt_run (s : Str) (i : Nat)
    (hlen : 32 ≤ ((s.drop i).takeWhile isHexChar).length) :
    cellsAt ((s.drop i).takeWhile isHexChar) 0 = cellsAt s i := by
  unfold cellsAt
  apply List.map_congr_left
  intro k hk
  have hk16 : k < 16 := List.mem_range.1 hk
  have hsub := substr_eq_of_isPrefixed ((s.drop i).takeWhile isHexChar) (s.drop i)
    (0 + 2 * k) 2 ( List.takeWhile_prefix _) (by omega)
  simp only [substr, List.drop_drop, Nat.zero_add] at hsub ⊢
  exact hsub

theorem flatten_cells (l : Str) (n : Nat) (h : 2 * n ≤ l.length) :
    ((List.range n).map (fun k => substr l (2 * k) 2)).flatten = l.take (2 * n) := by
  induction n with
  | zero => simp
  | succ n ih =>
    rw [List.range_succ, List.map_append, List.flatten_append, ih (by omega)]
    have h2 : 2 * (n + 1) = 2 * n + 2 := by omega
    rw [h2, List.take_add]
    simp [substr]

theorem cellsAt_spec (s : Str) (i : Nat) (hi : hexRunAt s i = true) :
    (cellsAt s i).length = 16 ∧ (∀ cell ∈ cellsAt s i, cell.length = 2) ∧
    (cellsAt s i).flatten = (s.drop i).take 32 := by
  have hlen : 32 ≤ (s.drop i).length := by
    simp only [hexRunAt, substr, Bool.and_eq_true, beq_iff_eq, List.length_take] at hi
    omega
  refine ⟨by simp [cellsAt], ?_, ?_⟩
  · intro cell hcell
    obtain ⟨k, hk, rfl⟩ := List.mem_map.1 hcell
    have hk16 : k < 16 := List.mem_range.1 hk
    simp only [List.length_drop] at hlen
    simp only [substr, List.length_take, List.length_drop]
    omega
  · have h := flatten_cells (s.drop i) 16 (by omega)
    simp only [substr, List.drop_drop] at h
    simpa [cellsAt, substr] using h

/-! ## Grouping of the trace -/

/-- C1: a record is in the group keyed `d` exactly when it is a record of the trace whose
label contains one of the markers `Block`, `Encryption`, `Decryption` and whose first match
of `Block <digits>` has digit run `d`; each group is the order-preserving sub-list of the
trace made of those records; a record without a `Block <digits>` match is in no group and
its presence changes neither the groups nor the containers built from them. -/
theorem createBlockProcessing_groups (steps : List StepRecord) :
    (∀ d r, (∃ g, (blockGroupsOf steps).get d = some g ∧ r ∈ g) ↔
      (r ∈ steps ∧
        (markerBlock <:+: r.step ∨ markerEncryption <:+: r.step ∨
          markerDecryption <:+: r.step) ∧
        matchBlock r.step = some d)) ∧
    (∀ d g, (blockGroupsOf steps).get d = some g →
      g = steps.filter (fun r => isBlockStep r && (matchBlock r.step == some d))) ∧
    (∀ r, matchBlock r.step = none →
      (∀ d g, (blockGroupsOf steps).get d = some g → r ∉ g) ∧
      (∀ pre post, steps = pre ++ r :: post →
        blockGroupsOf steps = blockGroupsOf (pre ++ post) ∧
        ∀ c a, createBlockProcessing steps c a = createBlockProcessing (pre ++ post) c a)) := by
  have hmem : ∀ d r, r ∈ recordsOfBlock steps d ↔
      (r ∈ steps ∧ isBlockStep r = true ∧ matchBlock r.step = some d) := by
    intro d r
    simp [recordsOfBlock, List.mem_filter]
  have hsome : ∀ d g, (blockGroupsOf steps).get d = some g → g = recordsOfBlock steps d := by
    intro d g hg
    rw [get_blockGroupsOf] at hg
    split at hg
    · cases hg
    · exact (Option.some.inj hg).symm
  refine ⟨?_, ?_, ?_⟩
  · intro d r
    rw [← isBlockStep_iff, ← hmem]
    constructor
    · rintro ⟨g, hg, hr⟩
      exact hsome d g hg ▸ hr
    · intro hr
      refine ⟨recordsOfBlock steps d, ?_, hr⟩
      rw [get_blockGroupsOf, if_neg (List.ne_nil_of_mem hr)]
  · intro d g hg
    exact hsome d g hg
  · intro r hr
    refine ⟨?_, ?_⟩
    · intro d g hg hmemg
      rw [hsome d g hg, hmem] at hmemg
      rw [hr] at hmemg
      exact Option.noConfusion hmemg.2.2
    · intro pre post hsteps
      have hgroups := blockGroupsOf_insert_unmatched pre post r hr
      refine ⟨hsteps ▸ hgroups, ?_⟩
      intro c a
      have hrec : ∀ d, recordsOfBlock (pre ++ r :: post) d = recordsOfBlock (pre ++ post) d := by
        intro d
        simp [recordsOfBlock, List.filter_append, List.filter_cons, hr]
      rw [hsteps, createBlockProcessing_eq, createBlockProcessing_eq, hgroups]
      simp only [hrec]

/-- C1, on the trace with the record `Block Encryption`: blocks 1 and 2 each hold their one
record, the unnumbered record is in neither, and removing it leaves the groups as they are. -/
theorem createBlockProcessing_groups_witness :
    (blockGroupsOf traceUnnumbered).get ['1'] = some [recBlock1] ∧
    [recBlock1] = traceUnnumbered.filter
      (fun r => isBlockStep r && (matchBlock r.step == some ['1'])) ∧
    isBlockStep recUnnumbered = true ∧ matchBlock recUnnumbered.step = none ∧
    recUnnumbered ∉ [recBlock1] ∧
    blockGroupsOf traceUnnumbered = blockGroupsOf ([recKey, recBlock1] ++ [recBlock2]) :=
  have h := createBlockProcessing_groups traceUnnumbered
  have hu : matchBlock recUnnumbered.step = none := by decide
  have hg : (blockGroupsOf traceUnnumbered).get ['1'] = some [recBlock1] := by decide
  ⟨hg, h.2.1 ['1'] [recBlock1] hg, by decide, hu,
    (h.2.2 recUnnumbered hu).1 ['1'] [recBlock1] hg,
    ((h.2.2 recUnnumbered hu).2 [recKey, recBlock1] [recBlock2] rfl).1⟩

/-- C2, as stated, fails: when block 2 appears in the trace before block 1 the containers
are created for block 1 first. -/
theorem createBlockProcessing_order_counterexample :
    (createBlockProcessing traceSwapped [] []).map (fun b => b.blockNum) = [['1'], ['2']] ∧
    firstAppearance (blockNumbers traceSwapped) = [['2'], ['1']] ∧
    (createBlockProcessing traceSwapped [] []).map (fun b => b.blockNum) ≠
      firstAppearance (blockNumbers traceSwapped) := by
  decide

/-- C2, amended: the block containers are created in the key order of the group object (block
numbers that are array indices in ascending numeric order, then the other digit strings in
order of first appearance), each holding the elements of its records in trace order, and the
step elements that the call appends are, in order of appending, the concatenation of the
blocks in that order; this is the order of first appearance whenever the first appearances
consist of array indices in ascending numeric order followed by digit strings that are not
array indices. Nothing is stated about the node list of the document-wide query for
`.block-step`, which may hold further elements. -/
theorem createBlockProcessing_order (steps : List StepRecord) (container : List BlockContainer)
    (action : Str) :
    createBlockProcessing steps container action =
      container ++ (JSObject.ownKeyOrder (firstAppearance (blockNumbers steps))).map
        (fun d => ⟨d, (steps.filter
          (fun r => isBlockStep r && (matchBlock r.step == some d))).map stepElOf⟩) ∧
    appendedStepEls (createBlockProcessing steps container action) =
      appendedStepEls container ++
        (JSObject.ownKeyOrder (firstAppearance (blockNumbers steps))).flatMap
          (fun d => (steps.filter
            (fun r => isBlockStep r && (matchBlock r.step == some d))).map stepElOf) ∧
    (∀ a b, firstAppearance (blockNumbers steps) = a ++ b →
      (∀ k ∈ a, JSObject.isArrayIndex k = true) →
      a.Pairwise (fun x y => JSObject.decimalValue x < JSObject.decimalValue y) →
      (∀ k ∈ b, JSObject.isArrayIndex k = false) →
      (createBlockProcessing steps container action).map (fun c => c.blockNum) =
        container.map (fun c => c.blockNum) ++ firstAppearance (blockNumbers steps)) := by
  have h := createBlockProcessing_eq steps container action
  rw [keys_blockGroupsOf] at h
  refine ⟨h, ?_, ?_⟩
  · rw [h, appendedStepEls_append, appendedStepEls_map]
    rfl
  · intro a b hab ha hsorted hb
    rw [h, hab, ownKeyOrder_append_eq a b ha hsorted hb]
    simp [Function.comp_def]

/-- C2, amended, on the scenario trace: blocks 1 and 2 first appear in ascending order, so
the containers are created in order of first appearance. -/
theorem createBlockProcessing_order_witness :
    firstAppearance (blockNumbers traceScenario) = [['1'], ['2']] ++ [] ∧
    (createBlockProcessing traceScenario [] []).map (fun c => c.blockNum) =
      ([] : List BlockContainer).map (fun c => c.blockNum) ++
        firstAppearance (blockNumbers traceScenario) :=
  ⟨by decide,
    (createBlockProcessing_order traceScenario [] []).2.2 [['1'], ['2']] [] (by decide)
      (by decide) (by decide) (by decide)⟩

/-- C3, as stated, fails: on a trace that returns to block 1 after a record of block 2 the
concatenation of the groups lists both records of block 1 before the record of block 2, and
is not a subsequence of the trace. -/
theorem groupsConcat_counterexample :
    groupsConcat traceInterleaved = [recBlock1, recBlock1Round, recBlock2] ∧
    ¬ (groupsConcat traceInterleaved).Sublist traceInterleaved := by
  decide

/-- C3, amended: every group is a subsequence of the trace; the concatenation of the groups
in first-appearance order is a rearrangement of the grouped records of the trace; and when
no block number comes back after a record of another block, the concatenation is exactly the
sub-list of grouped records, hence a subsequence of the trace. -/
theorem groupsConcat_subsequence (steps : List StepRecord) :
    (∀ d g, (blockGroupsOf steps).get d = some g → g.Sublist steps) ∧
    (groupsConcat steps).Perm (groupedRecords steps) ∧
    (groupedRecords steps).Sublist steps ∧
    (noReturn (blockNumbers steps) = true →
      groupsConcat steps = groupedRecords steps ∧ (groupsConcat steps).Sublist steps) := by
  refine ⟨?_, ?_, List.filter_sublist _, ?_⟩
  · intro d g hg
    rw [get_blockGroupsOf] at hg
    split at hg
    · cases hg
    · rw [← Option.some.inj hg]
      exact List.filter_sublist _
  · rw [groupsConcat_eq, ← groupedRecords_eq]
    exact concat_perm _
  · intro h
    have heq : groupsConcat steps = groupedRecords steps := by
      rw [groupsConcat_eq, ← groupedRecords_eq]
      exact concat_eq _ h
    exact ⟨heq, heq ▸ List.filter_sublist _⟩

/-- C3, amended, on the scenario trace with an unnumbered record: no block number comes
back, and the concatenation is the two numbered records in trace order. -/
theorem groupsConcat_subsequence_witness :
    noReturn (blockNumbers traceUnnumbered) = true ∧
    (blockGroupsOf traceUnnumbered).get ['2'] = some [recBlock2] ∧
    [recBlock2].Sublist traceUnnumbered ∧
    groupsConcat traceUnnumbered = groupedRecords traceUnnumbered ∧
    (groupsConcat traceUnnumbered).Sublist traceUnnumbered :=
  have h := groupsConcat_subsequence traceUnnumbered
  have hg : (blockGroupsOf traceUnnumbered).get ['2'] = some [recBlock2] := by decide
  ⟨by decide, hg, h.1 ['2'] [recBlock2] hg, h.2.2.2 (by decide)⟩

/-- C4: for a label made of a text without a `Block <digit>` occurrence, then `Block `, the
decimal form of `N`, and a text that does not start with a digit, the extracted block number
is the decimal form of `N`, it reads back as `N`, and it is the block number of the container
that `createBlockProcessing` builds for a record with that label. -/
theorem matchBlock_roundtrip (N : Nat) (pre post detail action : Str)
    (hpre : ∀ a b c, pre = a ++ blockLit ++ c :: b → isDigitChar c = false)
    (hpost : ∀ c, post.head? = some c → isDigitChar c = false) :
    matchBlock (pre ++ blockLit ++ Nat.toDigits 10 N ++ post) = some (Nat.toDigits 10 N) ∧
    JSObject.decimalValue (Nat.toDigits 10 N) = N ∧
    (createBlockProcessing [⟨pre ++ blockLit ++ Nat.toDigits 10 N ++ post, detail⟩] []
      action).map (fun c => JSObject.decimalValue c.blockNum) = [N] := by
  obtain ⟨hne, hds, hval⟩ := toDigits_spec N
  have hm := matchBlock_label pre (Nat.toDigits 10 N) post hpre hne hds hpost
  refine ⟨hm, hval, ?_⟩
  rw [createBlockProcessing_single ⟨pre ++ blockLit ++ Nat.toDigits 10 N ++ post, detail⟩
    (Nat.toDigits 10 N) hm action]
  simp [hval]

/-- C4, on the label `Round of Block 12 Encryption`: the block number read is 12. -/
theorem matchBlock_roundtrip_witness :
    matchBlock ("Round of ".toList ++ blockLit ++ Nat.toDigits 10 12 ++ " Encryption".toList) =
      some (Nat.toDigits 10 12) ∧
    JSObject.decimalValue (Nat.toDigits 10 12) = 12 ∧
    (createBlockProcessing
      [⟨"Round of ".toList ++ blockLit ++ Nat.toDigits 10 12 ++ " Encryption".toList, []⟩] []
      []).map (fun c => JSObject.decimalValue c.blockNum) = [12] :=
  matchBlock_roundtrip 12 "Round of ".toList " Encryption".toList [] []
    (by
      intro a b c h
      have hlen := congrArg List.length h
      simp [blockLit] at hlen
      have hb : a.length + b.length = 2 := by omega
      rcases a with _ | ⟨a0, _ | ⟨a1, _ | ⟨a2, a⟩⟩⟩ <;>
        rcases b with _ | ⟨b0, _ | ⟨b1, _ | ⟨b2, b⟩⟩⟩ <;>
        simp at hb <;> simp [blockLit] at h
      all_goals omega)
    (by decide)

/-- C5: when the detail holds a run of 32 characters of `[A-F0-9]` starting at index `i`
and at no earlier index, the markup of the step element is the label, then `<br>` and a
`div` of class `matrix-display` that holds, for each of the sixteen two-character cells cut
in source order from index `i`, one `div` of class `matrix-cell` with the cell as its text;
the cells are sixteen, each of two characters, and their concatenation is the 32 characters
from index `i`; a detail that holds such a run anywhere has a leftmost one; when the detail
holds no such run, the markup is the label alone. -/
theorem stepContent_matrix (step : StepRecord) :
    (∀ i, hexRunAt step.detail i = true → (∀ j, j < i → hexRunAt step.detail j = false) →
      stepContent step =
        step.step ++ "<br><div class=\"matrix-display\">".toList ++
          ((cellsAt step.detail i).map
            (fun cell =>
              "<div class=\"matrix-cell\">".toList ++ cell ++ "</div>".toList)).flatten ++
          "</div>".toList ∧
      (cellsAt step.detail i).length = 16 ∧
      (∀ cell ∈ cellsAt step.detail i, cell.length = 2) ∧
      (cellsAt step.detail i).flatten = (step.detail.drop i).take 32) ∧
    ((∃ i, hexRunAt step.detail i = true) →
      ∃ i, hexRunAt step.detail i = true ∧ (∀ j, j < i → hexRunAt step.detail j = false) ∧
        stepContent step =
          step.step ++ "<br><div class=\"matrix-display\">".toList ++
            ((cellsAt step.detail i).map
              (fun cell =>
                "<div class=\"matrix-cell\">".toList ++ cell ++ "</div>".toList)).flatten ++
            "</div>".toList) ∧
    ((∀ i, hexRunAt step.detail i = false) → stepContent step = step.step) := by
  have hfirst : ∀ i, hexRunAt step.detail i = true →
      (∀ j, j < i → hexRunAt step.detail j = false) →
      stepContent step =
        step.step ++ "<br><div class=\"matrix-display\">".toList ++
          ((cellsAt step.detail i).map
            (fun cell =>
              "<div class=\"matrix-cell\">".toList ++ cell ++ "</div>".toList)).flatten ++
          "</div>".toList := by
    intro i hi hmin
    have hm := matchHex_leftmost step.detail i hi hmin
    have hlen : 32 ≤ ((step.detail.drop i).takeWhile isHexChar).length := by
      rw [le_length_takeWhile_iff]
      simpa [hexRunAt] using hi
    unfold stepContent
    rw [hm]
    simp only [formatAsMatrix_eq _ hlen, cellsAt_run step.detail i hlen]
  refine ⟨?_, ?_, ?_⟩
  · intro i hi hmin
    exact ⟨hfirst i hi hmin, cellsAt_spec step.detail i hi⟩
  · intro h
    have hmin : ∀ j, j < Nat.find h → hexRunAt step.detail j = false := by
      intro j hj
      simpa using Nat.find_min h hj
    exact ⟨Nat.find h, Nat.find_spec h, hmin, hfirst _ (Nat.find_spec h) hmin⟩
  · intro hnone
    unfold stepContent
    rw [matchHex_none step.detail hnone]

/-- C5, on the records of the scenario: for the detail `3243F6A8885A308D313198A2E0370734`
the markup of the step element is the label followed by a matrix display with the sixteen
cells 32, 43, F6, A8, 88, 5A, 30, 8D, 31, 31, 98, A2, E0, 37, 07, 34; a run of 34
characters inside other text gives the cells of its first 32 characters; a detail in lower
case gives the label alone. -/
theorem stepContent_matrix_witness :
    (stepContent recBlock1 =
        ("Block 1 Encryption<br><div class=\"matrix-display\">" ++
          "<div class=\"matrix-cell\">32</div><div class=\"matrix-cell\">43</div>" ++
          "<div class=\"matrix-cell\">F6</div><div class=\"matrix-cell\">A8</div>" ++
          "<div class=\"matrix-cell\">88</div><div class=\"matrix-cell\">5A</div>" ++
          "<div class=\"matrix-cell\">30</div><div class=\"matrix-cell\">8D</div>" ++
          "<div class=\"matrix-cell\">31</div><div class=\"matrix-cell\">31</div>" ++
          "<div class=\"matrix-cell\">98</div><div class=\"matrix-cell\">A2</div>" ++
          "<div class=\"matrix-cell\">E0</div><div class=\"matrix-cell\">37</div>" ++
          "<div class=\"matrix-cell\">07</div><div class=\"matrix-cell\">34</div>" ++
          "</div>").toList ∧
      cellsAt recBlock1.detail 0 =
        ["32".toList, "43".toList, "F6".toList, "A8".toList, "88".toList, "5A".toList,
          "30".toList, "8D".toList, "31".toList, "31".toList, "98".toList, "A2".toList,
          "E0".toList, "37".toList, "07".toList, "34".toList]) ∧
    (stepContent recLongRun =
        recLongRun.step ++ "<br><div class=\"matrix-display\">".toList ++
          ((cellsAt recLongRun.detail 7).map
            (fun cell =>
              "<div class=\"matrix-cell\">".toList ++ cell ++ "</div>".toList)).flatten ++
          "</div>".toList ∧
      (cellsAt recLongRun.detail 7).flatten = "3243F6A8885A308D313198A2E0370734".toList) ∧
    stepContent recLowercase = recLowercase.step :=
  ⟨⟨((stepContent_matrix recBlock1).1 0 (by decide) (by decide)).1.trans
        (by set_option maxRecDepth 100000 in decide),
      by decide⟩,
    ⟨((stepContent_matrix recLongRun).1 7 (by decide) (by decide)).1, by decide⟩,
    (stepContent_matrix recLowercase).2.2 (by
      intro i
      cases i with
      | zero => decide
      | succ i =>
        have hlen : recLowercase.detail.length = 32 := by decide
        simp only [hexRunAt, Bool.and_eq_false_iff, beq_eq_false_iff_ne, ne_eq,
          List.length_take, List.length_drop, hlen]
        left
        omega)⟩

/-! ## The stage chain -/

theorem stageTick_stage0 (d : Document) (b : Nat) :
    stageTick ⟨d, 0, 1, b⟩ = ⟨addActive "stage-input" d, 1, 1, b⟩ := rfl

theorem stageTick_stage1 (d : Document) (b : Nat) :
    stageTick ⟨d, 1, 1, b⟩ =
      ⟨addActive "stage-key" (addCompleted "stage-input" (removeActive "stage-input" d)),
        2, 1, b⟩ := rfl

theorem stageTick_stage2 (d : Document) (b : Nat) :
    stageTick ⟨d, 2, 1, b⟩ =
      ⟨addActive "stage-mode" (addCompleted "stage-key" (removeActive "stage-key" d)),
        3, 1, b⟩ := rfl

theorem stageTick_stage3 (d : Document) (b : Nat) :
    stageTick ⟨d, 3, 1, b⟩ =
      ⟨addActive "stage-processing" (addCompleted "stage-mode" (removeActive "stage-mode" d)),
        4, 1, b + 1⟩ := rfl

theorem stageTick_stage4 (d : Document) (b : Nat) :
    stageTick ⟨d, 4, 1, b⟩ =
      ⟨addActive "stage-output"
        (addCompleted "stage-processing" (removeActive "stage-processing" d)), 5, 1, b⟩ := rfl

theorem stageTick_stage5 (d : Document) (b : Nat) :
    stageTick ⟨d, 5, 1, b⟩ =
      ⟨addCompleted "stage-output" (removeActive "stage-output"
        (addCompleted "stage-output" (removeActive "stage-output" d))), 5, 0, b⟩ := rfl

theorem stageTick_idle (s : StageRun) (h : s.timers = 0) : stageTick s = s := by
  simp [stageTick, h]

theorem stageTicks_idle (s : StageRun) (h : s.timers = 0) (k : Nat) : stageTicks k s = s := by
  induction k with
  | zero => rfl
  | succ k ih => rw [stageTicks, ih, stageTick_idle s h]

theorem stageTicks_add (j k : Nat) (s : StageRun) :
    stageTicks (j + k) s = stageTicks j (stageTicks k s) := by
  induction j with
  | zero => simp [stageTicks]
  | succ j ih => rw [Nat.succ_add, stageTicks, ih, stageTicks]

theorem stageTicks_six_timers (d : Document) (b : Nat) :
    (stageTicks 6 ⟨d, 0, 1, b⟩).timers = 0 := by
  simp only [stageTicks, stageTick_stage0, stageTick_stage1, stageTick_stage2, stageTick_stage3,
    stageTick_stage4, stageTick_stage5]

theorem stageTicks_stable (d : Document) (b k : Nat) (hk : 6 ≤ k) :
    stageTicks k ⟨d, 0, 1, b⟩ = stageTicks 6 ⟨d, 0, 1, b⟩ := by
  obtain ⟨j, rfl⟩ := Nat.exists_eq_add_of_le hk
  rw [Nat.add_comm, stageTicks_add, stageTicks_idle _ (stageTicks_six_timers d b)]

theorem stageTicks_counters (d : Document) (b k : Nat) :
    (stageTicks k ⟨d, 0, 1, b⟩).currentStage = min k 5 ∧
    (stageTicks k ⟨d, 0, 1, b⟩).timers = (if k ≤ 5 then 1 else 0) ∧
    (stageTicks k ⟨d, 0, 1, b⟩).blockAnimations = (if 4 ≤ k then b + 1 else b) := by
  by_cases hk : k ≤ 6
  · interval_cases k <;>
      simp only [stageTicks, stageTick_stage0, stageTick_stage1, stageTick_stage2,
        stageTick_stage3, stageTick_stage4, stageTick_stage5] <;> simp
  · have h6 : 6 ≤ k := by omega
    rw [stageTicks_stable d b k h6]
    have h5 : ¬ k ≤ 5 := by omega
    have h4 : 4 ≤ k := by omega
    have hmin : min k 5 = 5 := by omega
    simp only [stageTicks, stageTick_stage0, stageTick_stage1, stageTick_stage2,
      stageTick_stage3, stageTick_stage4, stageTick_stage5, h5, h4, hmin, if_true, if_false]
    simp

theorem stageRunToEnd_tick (fuel : Nat) (s : StageRun) (h : s.timers ≠ 0) :
    stageRunToEnd (fuel + 1) s = stageRunToEnd fuel (stageTick s) := by
  simp [stageRunToEnd, h]

theorem stageRunToEnd_done (fuel : Nat) (s : StageRun) (h : s.timers = 0) :
    stageRunToEnd fuel s = s := by
  cases fuel <;> simp [stageRunToEnd, h]

theorem stageRunToEnd_six (d : Document) (b fuel : Nat) (h : 6 ≤ fuel) :
    stageRunToEnd fuel ⟨d, 0, 1, b⟩ = stageTicks 6 ⟨d, 0, 1, b⟩ := by
  obtain ⟨j, rfl⟩ := Nat.exists_eq_add_of_le h
  have e : 6 + j = j + 1 + 1 + 1 + 1 + 1 + 1 := by omega
  rw [e]
  rw [stageRunToEnd_tick _ _ (by simp), stageTick_stage0,
    stageRunToEnd_tick _ _ (by simp), stageTick_stage1,
    stageRunToEnd_tick _ _ (by simp), stageTick_stage2,
    stageRunToEnd_tick _ _ (by simp), stageTick_stage3,
    stageRunToEnd_tick _ _ (by simp), stageTick_stage4,
    stageRunToEnd_tick _ _ (by simp), stageTick_stage5,
    stageRunToEnd_done _ _ rfl]
  simp only [stageTicks, stageTick_stage0, stageTick_stage1, stageTick_stage2, stageTick_stage3,
    stageTick_stage4, stageTick_stage5]

theorem stageTicks_dom_pending (d : Document) (b : Nat)
    (hpending : ∀ id ∈ stageOrder, d id = ⟨false, false⟩) (k i : Nat) (hk : k ≤ 6)
    (hi : i < 5) :
    (stageTicks k ⟨d, 0, 1, b⟩).dom (stageId i) =
      if i + 1 < k then ⟨false, true⟩ else if i + 1 = k then ⟨true, false⟩
      else ⟨false, false⟩ := by
  have h1 := hpending "stage-input" (by decide)
  have h2 := hpending "stage-key" (by decide)
  have h3 := hpending "stage-mode" (by decide)
  have h4 := hpending "stage-processing" (by decide)
  have h5 := hpending "stage-output" (by decide)
  interval_cases k <;> interval_cases i <;>
    simp only [stageTicks, stageTick_stage0, stageTick_stage1, stageTick_stage2,
      stageTick_stage3, stageTick_stage4, stageTick_stage5] <;>
    simp [stageId, stageOrder, addActive, removeActive, addCompleted, onElement, h1, h2, h3,
      h4, h5]

theorem activeStages_pending (d : Document) (b : Nat)
    (hpending : ∀ id ∈ stageOrder, d id = ⟨false, false⟩) (k : Nat) :
    activeStages (stageTicks k ⟨d, 0, 1, b⟩) =
      if 1 ≤ k ∧ k ≤ 5 then [stageId (k - 1)] else [] := by
  have key : ∀ j, j ≤ 6 → activeStages (stageTicks j ⟨d, 0, 1, b⟩) =
      if 1 ≤ j ∧ j ≤ 5 then [stageId (j - 1)] else [] := by
    intro j hj
    have v0 := stageTicks_dom_pending d b hpending j 0 hj (by decide)
    have v1 := stageTicks_dom_pending d b hpending j 1 hj (by decide)
    have v2 := stageTicks_dom_pending d b hpending j 2 hj (by decide)
    have v3 := stageTicks_dom_pending d b hpending j 3 hj (by decide)
    have v4 := stageTicks_dom_pending d b hpending j 4 hj (by decide)
    simp only [stageId, stageOrder, List.getD_cons_zero, List.getD_cons_succ] at v0 v1 v2 v3 v4
    interval_cases j <;>
      simp [activeStages, stageOrder, stageId, List.filter, v0, v1, v2, v3, v4]
  by_cases hk : k ≤ 6
  · exact key k hk
  · have h6 : 6 ≤ k := by omega
    rw [stageTicks_stable d b k h6, key 6 (by decide)]
    have : ¬ (1 ≤ k ∧ k ≤ 5) := by omega
    simp [this]

/-- C6: started from all stages pending, after the `k`-th tick (`1 ≤ k ≤ 5`) stage `k` of the
fixed order is active and not completed, the earlier stages are completed and not active, the
later stages are pending; at every tick count at most one stage is active, and the active
stages seen over the ticks are the five stages in the fixed order, each once. -/
theorem stages_progress (flowStages : List String) (dom : Document)
    (hpending : ∀ id ∈ stageOrder,
      (animateFlowchartStages flowStages dom).dom id = ⟨false, false⟩) :
    (∀ k i, 1 ≤ k → k ≤ 5 → i < 5 →
      (stageTicks k (animateFlowchartStages flowStages dom)).dom (stageId i) =
        if i + 1 < k then ⟨false, true⟩ else if i + 1 = k then ⟨true, false⟩
        else ⟨false, false⟩) ∧
    (∀ k, activeStages (stageTicks k (animateFlowchartStages flowStages dom)) =
      if 1 ≤ k ∧ k ≤ 5 then [stageId (k - 1)] else []) ∧
    (∀ k, (activeStages (stageTicks k (animateFlowchartStages flowStages dom))).length ≤ 1) ∧
    (List.range 7).map
        (fun k => activeStages (stageTicks k (animateFlowchartStages flowStages dom))) =
      [[], ["stage-input"], ["stage-key"], ["stage-mode"], ["stage-processing"],
        ["stage-output"], []] := by
  have hact := activeStages_pending _ 0 hpending
  refine ⟨?_, hact, ?_, ?_⟩
  · intro k i _ hk hi
    exact stageTicks_dom_pending _ 0 hpending k i (by omega) hi
  · intro k
    have := hact k
    simp only [animateFlowchartStages] at this ⊢
    rw [this]
    split <;> simp
  · have e : List.range 7 = [0, 1, 2, 3, 4, 5, 6] := by decide
    simp only [animateFlowchartStages] at hact ⊢
    rw [e]
    simp only [List.map_cons, List.map_nil, hact]
    simp [stageId, stageOrder]

/-- C6, on a document whose stage elements all carry both classes and all belong to the
class `flow-stage`: the reset leaves them pending, and after the third tick `stage-mode` is
the only active stage. -/
theorem stages_progress_witness :
    (∀ id ∈ stageOrder,
      (animateFlowchartStages stageOrder domAllSet).dom id = ⟨false, false⟩) ∧
    (stageTicks 3 (animateFlowchartStages stageOrder domAllSet)).dom (stageId 1) =
      ⟨false, true⟩ ∧
    activeStages (stageTicks 3 (animateFlowchartStages stageOrder domAllSet)) =
      ["stage-mode"] :=
  have hp : ∀ id ∈ stageOrder,
      (animateFlowchartStages stageOrder domAllSet).dom id = ⟨false, false⟩ := by decide
  ⟨hp, (stages_progress stageOrder domAllSet hp).1 3 1 (by decide) (by decide) (by decide),
    (stages_progress stageOrder domAllSet hp).2.1 3⟩

/-- C7: the stage chain stops. A timer is pending after each of the first five ticks and none
after the sixth; further ticks change nothing; run to its end with room for six ticks or
more, the chain ends in the state after the sixth tick, in which `stage-output` is completed
and no stage is active, whatever the classes at the start. -/
theorem stages_terminate (flowStages : List String) (dom : Document) :
    (∀ k, k ≤ 5 → (stageTicks k (animateFlowchartStages flowStages dom)).timers = 1) ∧
    (stageTicks 6 (animateFlowchartStages flowStages dom)).timers = 0 ∧
    (∀ k, 6 ≤ k → stageTicks k (animateFlowchartStages flowStages dom) =
      stageTicks 6 (animateFlowchartStages flowStages dom)) ∧
    (∀ fuel, 6 ≤ fuel → stageRunToEnd fuel (animateFlowchartStages flowStages dom) =
      stageTicks 6 (animateFlowchartStages flowStages dom)) ∧
    ((stageTicks 6 (animateFlowchartStages flowStages dom)).dom "stage-output").completed =
      true ∧
    activeStages (stageTicks 6 (animateFlowchartStages flowStages dom)) = [] := by
  refine ⟨?_, stageTicks_six_timers _ 0, fun k hk => stageTicks_stable _ 0 k hk,
    fun fuel hf => stageRunToEnd_six _ 0 fuel hf, ?_, ?_⟩
  · intro k hk
    have := (stageTicks_counters
      (animateFlowchartStages flowStages dom).dom 0 k).2.1
    simpa [animateFlowchartStages, hk] using this
  · simp only [animateFlowchartStages, stageTicks, stageTick_stage0, stageTick_stage1,
      stageTick_stage2, stageTick_stage3, stageTick_stage4, stageTick_stage5]
    simp [addCompleted, onElement]
  · simp only [animateFlowchartStages, stageTicks, stageTick_stage0, stageTick_stage1,
      stageTick_stage2, stageTick_stage3, stageTick_stage4, stageTick_stage5]
    simp [activeStages, stageOrder, addActive, removeActive, addCompleted, onElement,
      List.filter]

/-- C7, on a document whose elements all carry both classes and none of which is reset: a
timer is pending after the second tick, ten ticks leave the state of the sixth, and a run
with room for ten ticks ends there. -/
theorem stages_terminate_witness :
    (stageTicks 2 (animateFlowchartStages [] domAllSet)).timers = 1 ∧
    stageTicks 10 (animateFlowchartStages [] domAllSet) =
      stageTicks 6 (animateFlowchartStages [] domAllSet) ∧
    stageRunToEnd 10 (animateFlowchartStages [] domAllSet) =
      stageTicks 6 (animateFlowchartStages [] domAllSet) ∧
    activeStages (stageTicks 6 (animateFlowchartStages [] domAllSet)) = [] :=
  ⟨(stages_terminate [] domAllSet).1 2 (by decide),
    (stages_terminate [] domAllSet).2.2.1 10 (by decide),
    (stages_terminate [] domAllSet).2.2.2.1 10 (by decide),
    (stages_terminate [] domAllSet).2.2.2.2.2⟩

/-- C9: in one run of the stage chain `animateBlockSteps` has been called once after every
tick from the fourth on and not at all before; the fourth tick is the one that finds
`currentStage = 3`, the index of `stage-processing`, and adds `active` to that stage, which
is not active after any earlier tick when it starts without that class. -/
theorem blockAnimation_once (flowStages : List String) (dom : Document) :
    (∀ k, (stageTicks k (animateFlowchartStages flowStages dom)).blockAnimations =
      if 4 ≤ k then 1 else 0) ∧
    (stageTicks 3 (animateFlowchartStages flowStages dom)).currentStage = 3 ∧
    stageId 3 = "stage-processing" ∧
    ((stageTicks 4 (animateFlowchartStages flowStages dom)).dom "stage-processing").active =
      true ∧
    (((animateFlowchartStages flowStages dom).dom "stage-processing").active = false →
      ∀ k, k < 4 →
        ((stageTicks k (animateFlowchartStages flowStages dom)).dom
          "stage-processing").active = false) := by
  refine ⟨?_, ?_, rfl, ?_, ?_⟩
  · intro k
    have := (stageTicks_counters (animateFlowchartStages flowStages dom).dom 0 k).2.2
    simpa [animateFlowchartStages] using this
  · have := (stageTicks_counters (animateFlowchartStages flowStages dom).dom 0 3).1
    simpa [animateFlowchartStages] using this
  · simp only [animateFlowchartStages, stageTicks, stageTick_stage0, stageTick_stage1,
      stageTick_stage2, stageTick_stage3]
    simp [addActive, onElement]
  · intro h k hk
    simp only [animateFlowchartStages] at h ⊢
    interval_cases k <;>
      simp only [stageTicks, stageTick_stage0, stageTick_stage1, stageTick_stage2] <;>
      simp [addActive, removeActive, addCompleted, onElement, h]

/-- C9, on a document reset by the run: no call after the third tick, one call after the
fourth and still one after the ninth; `stage-processing` is not active after the third
tick. -/
theorem blockAnimation_once_witness :
    (stageTicks 3 (animateFlowchartStages stageOrder domAllSet)).blockAnimations = 0 ∧
    (stageTicks 4 (animateFlowchartStages stageOrder domAllSet)).blockAnimations = 1 ∧
    (stageTicks 9 (animateFlowchartStages stageOrder domAllSet)).blockAnimations = 1 ∧
    ((stageTicks 3 (animateFlowchartStages stageOrder domAllSet)).dom
      "stage-processing").active = false :=
  ⟨(blockAnimation_once stageOrder domAllSet).1 3,
    (blockAnimation_once stageOrder domAllSet).1 4,
    (blockAnimation_once stageOrder domAllSet).1 9,
    (blockAnimation_once stageOrder domAllSet).2.2.2.2 (by decide) 3 (by decide)⟩

/-! ## The highlight chain -/

theorem length_setActive (l : List BlockStepEl) (i : Nat) (b : Bool) :
    (setActive l i b).length = l.length := by
  induction l generalizing i with
  | nil => rfl
  | cons e es ih => cases i <;> simp [setActive, ih]

theorem setActive_setActive (l : List BlockStepEl) (i : Nat) (b c : Bool) :
    setActive (setActive l i b) i c = setActive l i c := by
  induction l generalizing i with
  | nil => rfl
  | cons e es ih => cases i <;> simp [setActive, ih]

theorem setActive_false_of_off (l : List BlockStepEl) (i : Nat)
    (hoff : ∀ e ∈ l, e.active = false) : setActive l i false = l := by
  induction l generalizing i with
  | nil => rfl
  | cons e es ih =>
    have he : e.active = false := hoff e (List.mem_cons_self _ _)
    have hes : ∀ x ∈ es, x.active = false := fun x hx => hoff x (List.mem_cons_of_mem _ hx)
    cases i with
    | zero =>
      cases e
      simp_all [setActive]
    | succ i => simp [setActive, ih i hes]

theorem getD_active_of_off (l : List BlockStepEl) (i : Nat)
    (hoff : ∀ e ∈ l, e.active = false) :
    (l.map (fun e => e.active)).getD i false = false := by
  induction l generalizing i with
  | nil => simp
  | cons e es ih =>
    have he : e.active = false := hoff e (List.mem_cons_self _ _)
    have hes : ∀ x ∈ es, x.active = false := fun x hx => hoff x (List.mem_cons_of_mem _ hx)
    cases i with
    | zero => simpa using he
    | succ i => simpa using ih i hes

theorem getD_active_setActive (l : List BlockStepEl) (i j : Nat)
    (hoff : ∀ e ∈ l, e.active = false) (hj : j < l.length) :
    ((setActive l j true).map (fun e => e.active)).getD i false = decide (i = j) := by
  induction l generalizing i j with
  | nil => simp at hj
  | cons e es ih =>
    have hes : ∀ x ∈ es, x.active = false := fun x hx => hoff x (List.mem_cons_of_mem _ hx)
    cases j with
    | zero =>
      cases i with
      | zero => simp [setActive]
      | succ i =>
        have := getD_active_of_off es i hes
        simpa [setActive] using this
    | succ j =>
      have hj' : j < es.length := by simpa using hj
      cases i with
      | zero =>
        have he : e.active = false := hoff e (List.mem_cons_self _ _)
        simpa [setActive] using he
      | succ i =>
        have := ih i j hes hj'
        simpa [setActive] using this

theorem filter_range_eq (n j : Nat) :
    (List.range n).filter (fun i => decide (i = j)) = if j < n then [j] else [] := by
  induction n with
  | zero => simp
  | succ n ih =>
    rw [List.range_succ, List.filter_append, ih]
    by_cases h1 : j < n
    · have h2 : j < n + 1 := by omega
      have h3 : ¬ n = j := by omega
      simp [h1, h2, h3]
    · by_cases h4 : n = j
      · subst h4
        simp
      · have h2 : ¬ j < n + 1 := by omega
        simp [h1, h2, h4]

theorem highlighted_setActive (nodes : List BlockStepEl) (j i t : Nat)
    (hoff : ∀ e ∈ nodes, e.active = false) (hj : j < nodes.length) :
    highlighted ⟨setActive nodes j true, i, t⟩ = [j] := by
  unfold highlighted
  simp only [length_setActive]
  rw [List.filter_congr (fun i _ => getD_active_setActive nodes i j hoff hj), filter_range_eq,
    if_pos hj]

theorem highlighted_of_off (nodes : List BlockStepEl) (i t : Nat)
    (hoff : ∀ e ∈ nodes, e.active = false) :
    highlighted ⟨nodes, i, t⟩ = [] := by
  unfold highlighted
  rw [List.filter_eq_nil_iff]
  intro k _
  rw [getD_active_of_off nodes k hoff]
  simp

theorem blockTicks_state (nodes : List BlockStepEl) (hoff : ∀ e ∈ nodes, e.active = false)
    (k : Nat) (hk : k + 1 ≤ nodes.length) :
    blockTicks (k + 1) (animateBlockSteps nodes) = ⟨setActive nodes k true, k + 1, 1⟩ := by
  induction k with
  | zero =>
    have hlen : 0 < nodes.length := by omega
    simp [blockTicks, blockTick, animateBlockSteps, highlightNextStep, hlen]
  | succ k ih =>
    have hlen : k + 1 < nodes.length := by omega
    rw [blockTicks, ih (by omega)]
    simp [blockTick, highlightNextStep, length_setActive, hlen, setActive_setActive,
      setActive_false_of_off nodes k hoff]

theorem blockTicks_stop (nodes : List BlockStepEl) (hoff : ∀ e ∈ nodes, e.active = false) :
    blockTicks (nodes.length + 1) (animateBlockSteps nodes) =
      { blockTicks nodes.length (animateBlockSteps nodes) with timers := 0 } := by
  cases hn : nodes.length with
  | zero =>
    simp [blockTicks, blockTick, animateBlockSteps, highlightNextStep, hn]
  | succ n =>
    rw [blockTicks, blockTicks_state nodes hoff n (by omega)]
    simp [blockTick, highlightNextStep, length_setActive, hn]

theorem blockTick_idle (s : BlockRun) (h : s.timers = 0) : blockTick s = s := by
  simp [blockTick, h]

theorem blockTicks_stable (nodes : List BlockStepEl) (hoff : ∀ e ∈ nodes, e.active = false)
    (k : Nat) (hk : nodes.length + 1 ≤ k) :
    blockTicks k (animateBlockSteps nodes) =
      blockTicks (nodes.length + 1) (animateBlockSteps nodes) := by
  induction k with
  | zero => omega
  | succ k ih =>
    by_cases h : nodes.length + 1 ≤ k
    · rw [blockTicks, ih h, blockTick_idle]
      rw [blockTicks_stop nodes hoff]
    · have : k = nodes.length := by omega
      rw [this]

/-- C8: over a node list of `n` elements that start un-highlighted, nothing is highlighted
before the first tick; after the `k`-th tick (`1 ≤ k ≤ n`) the highlighted elements are
exactly the one at index `k - 1`, the index stands at `k` and the next tick is pending; tick
`n + 1` changes no element and leaves no tick pending, as do all later ticks; so for
`n ≥ 1` the last element stays highlighted and for `n = 0` nothing is ever highlighted. -/
theorem highlight_progress (nodes : List BlockStepEl)
    (hoff : ∀ e ∈ nodes, e.active = false) :
    highlighted (animateBlockSteps nodes) = [] ∧
    (∀ k, 1 ≤ k → k ≤ nodes.length →
      highlighted (blockTicks k (animateBlockSteps nodes)) = [k - 1] ∧
      (blockTicks k (animateBlockSteps nodes)).stepIndex = k ∧
      (blockTicks k (animateBlockSteps nodes)).timers = 1) ∧
    ((blockTicks (nodes.length + 1) (animateBlockSteps nodes)).blockSteps =
        (blockTicks nodes.length (animateBlockSteps nodes)).blockSteps ∧
      (blockTicks (nodes.length + 1) (animateBlockSteps nodes)).stepIndex = nodes.length ∧
      (blockTicks (nodes.length + 1) (animateBlockSteps nodes)).timers = 0) ∧
    (∀ k, nodes.length + 1 ≤ k →
      blockTicks k (animateBlockSteps nodes) =
        blockTicks (nodes.length + 1) (animateBlockSteps nodes)) ∧
    (1 ≤ nodes.length → ∀ k, nodes.length ≤ k →
      highlighted (blockTicks k (animateBlockSteps nodes)) = [nodes.length - 1]) ∧
    (nodes.length = 0 → ∀ k, highlighted (blockTicks k (animateBlockSteps nodes)) = []) := by
  have hstart : highlighted (animateBlockSteps nodes) = [] := highlighted_of_off nodes 0 1 hoff
  have hrun : ∀ k, 1 ≤ k → k ≤ nodes.length →
      highlighted (blockTicks k (animateBlockSteps nodes)) = [k - 1] ∧
      (blockTicks k (animateBlockSteps nodes)).stepIndex = k ∧
      (blockTicks k (animateBlockSteps nodes)).timers = 1 := by
    intro k hk1 hkn
    obtain ⟨j, rfl⟩ := Nat.exists_eq_add_of_le hk1
    rw [Nat.add_comm 1 j, blockTicks_state nodes hoff j (by omega)]
    exact ⟨highlighted_setActive nodes j _ _ hoff (by omega), rfl, rfl⟩
  have hstop := blockTicks_stop nodes hoff
  have hidx : (blockTicks nodes.length (animateBlockSteps nodes)).stepIndex = nodes.length := by
    by_cases hn : nodes.length = 0
    · rw [hn]; rfl
    · exact (hrun nodes.length (by omega) (Nat.le_refl _)).2.1
  have hstable := blockTicks_stable nodes hoff
  have hlate : ∀ k, nodes.length ≤ k →
      highlighted (blockTicks k (animateBlockSteps nodes)) =
        highlighted (blockTicks nodes.length (animateBlockSteps nodes)) := by
    intro k hk
    by_cases hkn : k = nodes.length
    · rw [hkn]
    · rw [hstable k (by omega), hstop]
      rfl
  refine ⟨hstart, hrun, ⟨by rw [hstop], by rw [hstop]; exact hidx, by rw [hstop]⟩, hstable,
    ?_, ?_⟩
  · intro hn k hk
    rw [hlate k hk]
    exact (hrun nodes.length hn (Nat.le_refl _)).1
  · intro hn k
    rw [hlate k (by omega), hn]
    exact hstart

/-- C8, on three elements: after the second tick the element at index 1 alone is
highlighted; tick 4 stops the chain; after seven ticks the last element is still the one
highlighted. -/
theorem highlight_progress_witness :
    (∀ e ∈ nodesThree, e.active = false) ∧
    highlighted (blockTicks 2 (animateBlockSteps nodesThree)) = [2 - 1] ∧
    (blockTicks 4 (animateBlockSteps nodesThree)).timers = 0 ∧
    highlighted (blockTicks 7 (animateBlockSteps nodesThree)) = [nodesThree.length - 1] :=
  have hoff : ∀ e ∈ nodesThree, e.active = false := by decide
  ⟨hoff, ((highlight_progress nodesThree hoff).2.1 2 (by decide) (by decide)).1,
    (highlight_progress nodesThree hoff).2.2.1.2.2,
    (highlight_progress nodesThree hoff).2.2.2.2.1 (by decide) 7 (by decide)⟩

/-! ## The step-list chain -/

theorem showStep_at (steps : List StepRecord) (div : List StepCard) (i t : Nat)
    (h : i < steps.length) :
    showStep ⟨steps, div, i, t⟩ = ⟨steps, div ++ [cardOf steps[i]], i + 1, t + 1⟩ := by
  simp [showStep, h]

theorem showStep_end (steps : List StepRecord) (div : List StepCard) (i t : Nat)
    (h : ¬ i < steps.length) :
    showStep ⟨steps, div, i, t⟩ = ⟨steps, div, i, t⟩ := by
  simp [showStep, h]

theorem take_succ_map_cardOf (steps : List StepRecord) (i : Nat) (h : i < steps.length) :
    (steps.take (i + 1)).map cardOf = (steps.take i).map cardOf ++ [cardOf steps[i]] := by
  rw [List.take_succ, List.getElem?_eq_getElem h]
  simp only [Option.toList, List.map_append, List.map_cons, List.map_nil]

theorem afterInvocations_state (steps : List StepRecord) (div : List StepCard) (k : Nat) :
    afterInvocations steps div (k + 1) =
      ⟨steps, div ++ (steps.take (min (k + 1) steps.length)).map cardOf,
        min (k + 1) steps.length, if k + 1 ≤ steps.length then 1 else 0⟩ := by
  induction k with
  | zero =>
    by_cases h : 0 < steps.length
    · have hmin : min (0 + 1) steps.length = 1 := by omega
      have hle : 0 + 1 ≤ steps.length := by omega
      rw [afterInvocations, animateSteps, stepListStart, showStep_at steps div 0 0 h, hmin,
        if_pos hle, take_succ_map_cardOf steps 0 h]
      simp
    · have hmin : min (0 + 1) steps.length = 0 := by omega
      have hle : ¬ 0 + 1 ≤ steps.length := by omega
      rw [afterInvocations, animateSteps, stepListStart, showStep_end steps div 0 0 h, hmin,
        if_neg hle]
      simp
  | succ k ih =>
    rw [afterInvocations, ih]
    by_cases h1 : k + 1 < steps.length
    · have hmin1 : min (k + 1) steps.length = k + 1 := by omega
      have hmin2 : min (k + 1 + 1) steps.length = k + 1 + 1 := by omega
      have hle1 : k + 1 ≤ steps.length := by omega
      have hle2 : k + 1 + 1 ≤ steps.length := by omega
      rw [hmin1, hmin2, if_pos hle1, if_pos hle2, take_succ_map_cardOf steps (k + 1) h1]
      simp [showStepTick, showStep_at steps _ (k + 1) 0 h1]
    · by_cases h2 : k + 1 = steps.length
      · have hmin1 : min (k + 1) steps.length = k + 1 := by omega
        have hmin2 : min (k + 1 + 1) steps.length = k + 1 := by omega
        have hle1 : k + 1 ≤ steps.length := by omega
        have hle2 : ¬ k + 1 + 1 ≤ steps.length := by omega
        rw [hmin1, hmin2, if_pos hle1, if_neg hle2]
        simp [showStepTick, showStep_end steps _ (k + 1) 0 h1]
      · have hmin1 : min (k + 1) steps.length = steps.length := by omega
        have hmin2 : min (k + 1 + 1) steps.length = steps.length := by omega
        have hle1 : ¬ k + 1 ≤ steps.length := by omega
        have hle2 : ¬ k + 1 + 1 ≤ steps.length := by omega
        rw [hmin1, hmin2, if_neg hle1, if_neg hle2]
        simp [showStepTick]

/-- C10: after the `k`-th invocation of `showStep` the container holds its initial children
followed by the cards of the first `min k n` records of the trace, in trace order; a timer is
pending after each of the first `n` invocations; from invocation `n + 1` on, no timer is
pending and the appended cards are one card per record of the whole trace, whether or not
the record is block-relevant. -/
theorem showStep_appends (steps : List StepRecord) (animationDiv : List StepCard) :
    (∀ k, (afterInvocations steps animationDiv k).animationDiv =
      animationDiv ++ (steps.take (min k steps.length)).map cardOf) ∧
    (∀ k, 1 ≤ k → k ≤ steps.length → (afterInvocations steps animationDiv k).timers = 1) ∧
    (∀ k, steps.length + 1 ≤ k →
      (afterInvocations steps animationDiv k).timers = 0 ∧
      (afterInvocations steps animationDiv k).animationDiv =
        animationDiv ++ steps.map cardOf) := by
  refine ⟨?_, ?_, ?_⟩
  · intro k
    cases k with
    | zero => simp [afterInvocations, stepListStart]
    | succ k => rw [afterInvocations_state]
  · intro k hk1 hkn
    obtain ⟨j, rfl⟩ := Nat.exists_eq_add_of_le hk1
    rw [Nat.add_comm 1 j, afterInvocations_state]
    simp only
    rw [if_pos (by omega)]
  · intro k hk
    obtain ⟨j, rfl⟩ := Nat.exists_eq_add_of_le hk
    have e : steps.length + 1 + j = (steps.length + j) + 1 := by omega
    rw [e, afterInvocations_state]
    simp only
    have hmin : min (steps.length + j + 1) steps.length = steps.length := by omega
    rw [if_neg (by omega), hmin, List.take_length]
    exact ⟨rfl, rfl⟩

/-- C10, on the scenario trace with an unnumbered record and a container that already holds
one child: after two invocations the child is followed by the cards of the first two
records, the first of which (`Key Expansion`) is not block-relevant; after five invocations
the chain has stopped with one card per record. -/
theorem showStep_appends_witness :
    isBlockStep recKey = false ∧
    (afterInvocations traceUnnumbered [⟨['x']⟩] 2).animationDiv =
      [⟨['x']⟩] ++ (traceUnnumbered.take (min 2 traceUnnumbered.length)).map cardOf ∧
    (afterInvocations traceUnnumbered [⟨['x']⟩] 2).timers = 1 ∧
    (afterInvocations traceUnnumbered [⟨['x']⟩] 5).timers = 0 ∧
    (afterInvocations traceUnnumbered [⟨['x']⟩] 5).animationDiv =
      [⟨['x']⟩] ++ traceUnnumbered.map cardOf :=
  ⟨by decide, (showStep_appends traceUnnumbered [⟨['x']⟩]).1 2,
    (showStep_appends traceUnnumbered [⟨['x']⟩]).2.1 2 (by decide) (by decide),
    (showStep_appends traceUnnumbered [⟨['x']⟩]).2.2 5 (by decide)⟩

/-! ## Numeric order of array-index keys -/

theorem digit_bounds (c : Char) (h : isDigitChar c = true) : 48 ≤ c.toNat ∧ c.toNat ≤ 57 := by
  simp only [isDigitChar, Bool.and_eq_true, decide_eq_true_eq] at h
  exact h

theorem digit_eq_of_value_eq (c d : Char) (hc : isDigitChar c = true)
    (hd : isDigitChar d = true) (h : c.toNat - '0'.toNat = d.toNat - '0'.toNat) : c = d := by
  have h1 := digit_bounds c hc
  have h2 := digit_bounds d hd
  have h0 : '0'.toNat = 48 := rfl
  rw [h0] at h
  have hn : c.toNat = d.toNat := by omega
  apply Char.ext
  exact UInt32.ext (by simpa [Char.toNat] using hn)

theorem decimalValue_lt_pow (a : Str) (ha : ∀ c ∈ a, isDigitChar c = true) :
    JSObject.decimalValue a < 10 ^ a.length := by
  induction a using List.reverseRecOn with
  | nil => simp [JSObject.decimalValue]
  | append_singleton xs c ih =>
    have hx := ih (fun x hx => ha x (List.mem_append_left _ hx))
    have hc := digit_bounds c (ha c (List.mem_append_right _ (List.mem_singleton_self c)))
    have h0 : '0'.toNat = 48 := rfl
    rw [decimalValue_append_single, List.length_append, List.length_singleton, Nat.pow_succ, h0]
    omega

theorem pow_le_decimalValue (a : Str) (hne : a ≠ []) (ha : ∀ c ∈ a, isDigitChar c = true)
    (hhead : a.head? ≠ some '0') : 10 ^ (a.length - 1) ≤ JSObject.decimalValue a := by
  induction a using List.reverseRecOn with
  | nil => exact absurd rfl hne
  | append_singleton xs c ih =>
    have hc := digit_bounds c (ha c (List.mem_append_right _ (List.mem_singleton_self c)))
    have h0 : '0'.toNat = 48 := rfl
    rw [decimalValue_append_single, h0]
    cases xs with
    | nil =>
      have hc0 : c ≠ '0' := by
        intro e
        apply hhead
        simp [e]
      have hn : c.toNat ≠ 48 := by
        intro e
        apply hc0
        apply Char.ext
        exact UInt32.ext (by simpa [Char.toNat] using e)
      simp only [List.nil_append, List.length_singleton, Nat.sub_self, Nat.pow_zero,
        JSObject.decimalValue, List.foldl_nil]
      omega
    | cons x xs =>
      have hx := ih (by simp) (fun y hy => ha y (List.mem_append_left _ hy))
        (by simpa using hhead)
      simp only [List.length_append, List.length_cons, List.length_singleton, List.length_nil,
        Nat.add_sub_cancel] at hx ⊢
      rw [Nat.pow_succ]
      omega

theorem eq_of_decimalValue_eq (a : Str) : ∀ b : Str, (∀ c ∈ a, isDigitChar c = true) →
    (∀ c ∈ b, isDigitChar c = true) → a.length = b.length →
    JSObject.decimalValue a = JSObject.decimalValue b → a = b := by
  induction a using List.reverseRecOn with
  | nil =>
    intro b _ _ hlen _
    exact (List.length_eq_zero.1 hlen.symm).symm
  | append_singleton xs c ih =>
    intro b ha hb hlen hval
    rcases List.eq_nil_or_concat b with hbn | ⟨ys, d, hbc⟩
    · rw [hbn] at hlen
      simp at hlen
    · rw [List.concat_eq_append] at hbc
      subst hbc
      have hc := ha c (List.mem_append_right _ (List.mem_singleton_self c))
      have hd := hb d (List.mem_append_right _ (List.mem_singleton_self d))
      have hcb := digit_bounds c hc
      have hdb := digit_bounds d hd
      have h0 : '0'.toNat = 48 := rfl
      rw [decimalValue_append_single, decimalValue_append_single, h0] at hval
      have hl : xs.length = ys.length := by simpa using hlen
      have hv : JSObject.decimalValue xs = JSObject.decimalValue ys := by omega
      have hdig : c.toNat - '0'.toNat = d.toNat - '0'.toNat := by rw [h0]; omega
      rw [ih ys (fun x hx => ha x (List.mem_append_left _ hx))
        (fun y hy => hb y (List.mem_append_left _ hy)) hl hv,
        digit_eq_of_value_eq c d hc hd hdig]

theorem isArrayIndex_spec (k : Str) (h : JSObject.isArrayIndex k = true) :
    k ≠ [] ∧ (∀ c ∈ k, isDigitChar c = true) ∧ (k = ['0'] ∨ k.head? ≠ some '0') ∧
    JSObject.decimalValue k < 2 ^ 32 - 1 := by
  simp only [JSObject.isArrayIndex, Bool.and_eq_true, Bool.not_eq_true', Bool.or_eq_true,
    List.all_eq_true, beq_iff_eq, bne_iff_ne, ne_eq, decide_eq_true_eq] at h
  obtain ⟨⟨⟨h1, h2⟩, h3⟩, h4⟩ := h
  refine ⟨?_, h2, h3, h4⟩
  intro e
  rw [e] at h1
  simp at h1

theorem arrayIndex_eq_of_value_eq (a b : Str) (ha : JSObject.isArrayIndex a = true)
    (hb : JSObject.isArrayIndex b = true)
    (h : JSObject.decimalValue a = JSObject.decimalValue b) : a = b := by
  obtain ⟨hane, hadig, hahead, _⟩ := isArrayIndex_spec a ha
  obtain ⟨hbne, hbdig, hbhead, _⟩ := isArrayIndex_spec b hb
  have hzero : JSObject.decimalValue ['0'] = 0 := by decide
  have hpos : ∀ k : Str, k ≠ [] → (∀ c ∈ k, isDigitChar c = true) → k.head? ≠ some '0' →
      0 < JSObject.decimalValue k := by
    intro k h1 h2 h3
    exact Nat.lt_of_lt_of_le (Nat.pos_pow_of_pos _ (by decide)) (pow_le_decimalValue k h1 h2 h3)
  rcases hahead with ha0 | ha1
  · rcases hbhead with hb0 | hb1
    · rw [ha0, hb0]
    · have := hpos b hbne hbdig hb1
      rw [ha0, hzero] at h
      omega
  · rcases hbhead with hb0 | hb1
    · have := hpos a hane hadig ha1
      rw [hb0, hzero] at h
      omega
    · have la := pow_le_decimalValue a hane hadig ha1
      have ua := decimalValue_lt_pow a hadig
      have lb := pow_le_decimalValue b hbne hbdig hb1
      have ub := decimalValue_lt_pow b hbdig
      rw [h] at la ua
      have h1 : a.length - 1 < b.length :=
        (Nat.pow_lt_pow_iff_right (by decide : 1 < 10)).1 (Nat.lt_of_le_of_lt la ub)
      have h2 : b.length - 1 < a.length :=
        (Nat.pow_lt_pow_iff_right (by decide : 1 < 10)).1 (Nat.lt_of_le_of_lt lb ua)
      have hapos : 0 < a.length := List.length_pos.2 hane
      have hbpos : 0 < b.length := List.length_pos.2 hbne
      exact eq_of_decimalValue_eq a b hadig hbdig (by omega) h

theorem ownKeyOrder_parts (ks : List Str) (hnd : ks.Nodup) :
    (JSObject.ownKeyOrder ks).filter JSObject.isArrayIndex ++
        ks.filter (fun k => !JSObject.isArrayIndex k) = JSObject.ownKeyOrder ks ∧
    ((JSObject.ownKeyOrder ks).filter JSObject.isArrayIndex).Pairwise
      (fun a b => JSObject.decimalValue a < JSObject.decimalValue b) ∧
    (JSObject.ownKeyOrder ks).filter (fun k => !JSObject.isArrayIndex k) =
      ks.filter (fun k => !JSObject.isArrayIndex k) ∧
    (JSObject.ownKeyOrder ks).Perm ks := by
  have hperm : ((ks.filter JSObject.isArrayIndex).insertionSort
      (fun a b => JSObject.decimalValue a ≤ JSObject.decimalValue b)).Perm
      (ks.filter JSObject.isArrayIndex) := List.perm_insertionSort _ _
  have hidx : ∀ k ∈ (ks.filter JSObject.isArrayIndex).insertionSort
      (fun a b => JSObject.decimalValue a ≤ JSObject.decimalValue b),
      JSObject.isArrayIndex k = true := by
    intro k hk
    exact (List.mem_filter.1 (hperm.mem_iff.1 hk)).2
  have hnot : ∀ k ∈ ks.filter (fun k => !JSObject.isArrayIndex k),
      JSObject.isArrayIndex k = false := by
    intro k hk
    simpa using (List.mem_filter.1 hk).2
  have hf1 : (JSObject.ownKeyOrder ks).filter JSObject.isArrayIndex =
      (ks.filter JSObject.isArrayIndex).insertionSort
        (fun a b => JSObject.decimalValue a ≤ JSObject.decimalValue b) := by
    have hnil : (ks.filter (fun k => !JSObject.isArrayIndex k)).filter JSObject.isArrayIndex =
        [] := by
      rw [List.filter_eq_nil_iff]
      intro k hk
      simp [hnot k hk]
    unfold JSObject.ownKeyOrder
    rw [List.filter_append, List.filter_eq_self.2 hidx, hnil, List.append_nil]
  have hf2 : (JSObject.ownKeyOrder ks).filter (fun k => !JSObject.isArrayIndex k) =
      ks.filter (fun k => !JSObject.isArrayIndex k) := by
    have hnil : ((ks.filter JSObject.isArrayIndex).insertionSort
        (fun a b => JSObject.decimalValue a ≤ JSObject.decimalValue b)).filter
        (fun k => !JSObject.isArrayIndex k) = [] := by
      rw [List.filter_eq_nil_iff]
      intro k hk
      simp [hidx k hk]
    have hself : (ks.filter (fun k => !JSObject.isArrayIndex k)).filter
        (fun k => !JSObject.isArrayIndex k) = ks.filter (fun k => !JSObject.isArrayIndex k) := by
      rw [List.filter_eq_self]
      intro k hk
      simp [hnot k hk]
    unfold JSObject.ownKeyOrder
    rw [List.filter_append, hnil, hself, List.nil_append]
  have hsorted : List.Sorted (fun a b => JSObject.decimalValue a ≤ JSObject.decimalValue b)
      ((ks.filter JSObject.isArrayIndex).insertionSort
        (fun a b => JSObject.decimalValue a ≤ JSObject.decimalValue b)) := by
    haveI : IsTotal Str (fun a b => JSObject.decimalValue a ≤ JSObject.decimalValue b) :=
      ⟨fun a b => Nat.le_total _ _⟩
    haveI : IsTrans Str (fun a b => JSObject.decimalValue a ≤ JSObject.decimalValue b) :=
      ⟨fun a b c hab hbc => Nat.le_trans hab hbc⟩
    exact List.sorted_insertionSort _ _
  have hnodup : ((ks.filter JSObject.isArrayIndex).insertionSort
      (fun a b => JSObject.decimalValue a ≤ JSObject.decimalValue b)).Nodup :=
    hperm.nodup_iff.2 (hnd.filter _)
  refine ⟨?_, ?_, hf2, ?_⟩
  · rw [hf1]
    rfl
  · rw [hf1]
    refine List.Pairwise.imp_of_mem ?_ (List.Pairwise.and hsorted hnodup)
    intro a b hma hmb hab
    rcases Nat.lt_or_ge (JSObject.decimalValue a) (JSObject.decimalValue b) with hlt | hge
    · exact hlt
    · exact absurd (arrayIndex_eq_of_value_eq a b (hidx a hma) (hidx b hmb)
        (Nat.le_antisymm hab.1 hge)) hab.2
  · exact (List.Perm.append_right _ hperm).trans (List.filter_append_perm _ ks)

theorem blockNums_createBlockProcessing (steps : List StepRecord)
    (container : List BlockContainer) (action : Str) :
    ((createBlockProcessing steps container action).drop container.length).map
        (fun c => c.blockNum) =
      JSObject.ownKeyOrder (firstAppearance (blockNumbers steps)) := by
  rw [createBlockProcessing_eq, keys_blockGroupsOf, List.drop_left, List.map_map]
  simp [Function.comp_def]

/-- C13: the block numbers of the created containers are those that are array indices, in
strictly ascending numeric order, followed by the other digit strings in order of first
appearance; every block number of the trace gets one container; when all block numbers of the
trace are array indices the whole sequence is strictly ascending, whatever the order of first
appearance; and each container holds the records whose digit string is its own, so that
digit strings with the same numeric value form separate groups. -/
theorem createBlockProcessing_key_order (steps : List StepRecord)
    (container : List BlockContainer) (action : Str) :
    createdBlockNums steps container action =
      (createdBlockNums steps container action).filter JSObject.isArrayIndex ++
        (firstAppearance (blockNumbers steps)).filter (fun k => !JSObject.isArrayIndex k) ∧
    ((createdBlockNums steps container action).filter JSObject.isArrayIndex).Pairwise
      (fun a b => JSObject.decimalValue a < JSObject.decimalValue b) ∧
    (createdBlockNums steps container action).Perm (firstAppearance (blockNumbers steps)) ∧
    ((∀ k ∈ blockNumbers steps, JSObject.isArrayIndex k = true) →
      (createdBlockNums steps container action).Pairwise
        (fun a b => JSObject.decimalValue a < JSObject.decimalValue b)) ∧
    (∀ c ∈ (createBlockProcessing steps container action).drop container.length,
      c.steps = (steps.filter
        (fun r => isBlockStep r && (matchBlock r.step == some c.blockNum))).map stepElOf) := by
  have hkeys : createdBlockNums steps container action =
      JSObject.ownKeyOrder (firstAppearance (blockNumbers steps)) :=
    blockNums_createBlockProcessing steps container action
  obtain ⟨h1, h2, _, h4⟩ :=
    ownKeyOrder_parts (firstAppearance (blockNumbers steps)) (nodup_firstAppearance _)
  refine ⟨?_, ?_, ?_, ?_, ?_⟩
  · rw [hkeys]
    exact h1.symm
  · rw [hkeys]
    exact h2
  · rw [hkeys]
    exact h4
  · intro hall
    have hself : (createdBlockNums steps container action).filter JSObject.isArrayIndex =
        createdBlockNums steps container action := by
      rw [List.filter_eq_self]
      intro k hk
      rw [hkeys] at hk
      exact hall k ((mem_firstAppearance _ k).1 (h4.mem_iff.1 hk))
    rw [← hself, hkeys]
    exact h2
  · intro c hc
    rw [createBlockProcessing_eq, List.drop_left] at hc
    obtain ⟨d, _, rfl⟩ := List.mem_map.1 hc
    rfl

/-- C13, on two traces: with block 2 before block 1 the containers are created for 1, then
2; with the block numbers `01`, `2`, `1` they are created for 1, 2, then `01`, whose
container holds the record labelled `Block 01` alone. -/
theorem createBlockProcessing_key_order_witness :
    (∀ k ∈ blockNumbers traceSwapped, JSObject.isArrayIndex k = true) ∧
    firstAppearance (blockNumbers traceSwapped) = [['2'], ['1']] ∧
    createdBlockNums traceSwapped [] [] = [['1'], ['2']] ∧
    (createdBlockNums traceSwapped [] []).Pairwise
      (fun a b => JSObject.decimalValue a < JSObject.decimalValue b) ∧
    firstAppearance (blockNumbers traceLeadingZero) = [['0', '1'], ['2'], ['1']] ∧
    createdBlockNums traceLeadingZero [] [] = [['1'], ['2'], ['0', '1']] ∧
    createdBlockNums traceLeadingZero [] [] =
      (createdBlockNums traceLeadingZero [] []).filter JSObject.isArrayIndex ++
        (firstAppearance (blockNumbers traceLeadingZero)).filter
          (fun k => !JSObject.isArrayIndex k) ∧
    traceLeadingZero.filter
      (fun r => isBlockStep r && (matchBlock r.step == some ['0', '1'])) = [recBlock01] :=
  have hall : ∀ k ∈ blockNumbers traceSwapped, JSObject.isArrayIndex k = true := by decide
  ⟨hall, by decide, by decide,
    (createBlockProcessing_key_order traceSwapped [] []).2.2.2.1 hall, by decide, by decide,
    (createBlockProcessing_key_order traceLeadingZero [] []).1, by decide⟩

/-! ## The locale switch -/

theorem applyDisplays_settled (assignments : List (String × String)) (j : String) :
    (∀ d, applyDisplays assignments d j = d j) ∨
      (∃ v, ∀ d, applyDisplays assignments d j = v) := by
  induction assignments with
  | nil => exact Or.inl (fun d => rfl)
  | cons a rest ih =>
    have hstep : ∀ d, applyDisplays (a :: rest) d = applyDisplays rest (setDisplay d a.1 a.2) :=
      fun d => rfl
    rcases ih with hid | ⟨v, hv⟩
    · by_cases hj : j = a.1
      · refine Or.inr ⟨a.2, fun d => ?_⟩
        rw [hstep, hid]
        simp [setDisplay, hj]
      · refine Or.inl (fun d => ?_)
        rw [hstep, hid]
        simp [setDisplay, hj]
    · exact Or.inr ⟨v, fun d => by rw [hstep, hv]⟩

theorem settled_comp (f g : Displays → Displays) (j : String)
    (hf : (∀ d, f d j = d j) ∨ (∃ v, ∀ d, f d j = v))
    (hg : (∀ d, g d j = d j) ∨ (∃ v, ∀ d, g d j = v)) :
    (∀ d, g (f d) j = d j) ∨ (∃ v, ∀ d, g (f d) j = v) := by
  rcases hg with hgid | ⟨v, hv⟩
  · rcases hf with hfid | ⟨w, hw⟩
    · exact Or.inl (fun d => by rw [hgid, hfid])
    · exact Or.inr ⟨w, fun d => by rw [hgid, hw]⟩
  · exact Or.inr ⟨v, fun d => hv (f d)⟩

theorem settled_twice (f : Displays → Displays)
    (hf : ∀ j, (∀ d, f d j = d j) ∨ (∃ v, ∀ d, f d j = v)) (d : Displays) :
    f (f d) = f d := by
  funext j
  rcases hf j with hid | ⟨v, hv⟩
  · exact hid (f d)
  · rw [hv (f d), hv d]

theorem langButtons_twice (a b : String) (c : Document) :
    removeActive b (addActive a (removeActive b (addActive a c))) =
      removeActive b (addActive a c) := by
  funext j
  simp only [removeActive, addActive, onElement]
  by_cases hab : a = b
  · subst hab
    by_cases h : j = a <;> simp [h]
  · have hba : ¬ b = a := fun e => hab e.symm
    by_cases h1 : j = b
    · subst h1
      simp [hba]
    · by_cases h2 : j = a
      · subst h2
        simp [hab]
      · simp [h1, h2]

theorem switchLanguage_twice (lang : Lang) (page : Page) :
    switchLanguage lang (switchLanguage lang page) = switchLanguage lang page := by
  have hiv : ∀ o : Option String,
      (o.map (fun _ => "1234567890123456")).map (fun _ => "1234567890123456") =
        o.map (fun _ => "1234567890123456") := by
    intro o
    cases o <;> rfl
  cases lang with
  | en =>
    have hd := settled_twice
      (fun d => applyDisplays [("download-text-en", "inline"), ("download-text-ar", "none")]
        (showEnglishFlowchartLabels (applyDisplays englishDisplays d)))
      (fun j => settled_comp _ _ j
        (settled_comp _ _ j (applyDisplays_settled englishDisplays j)
          (applyDisplays_settled _ j))
        (applyDisplays_settled _ j)) page.display
    simp only [switchLanguage, if_true, Page.mk.injEq, true_and, and_true, hiv,
      langButtons_twice]
    exact hd
  | ar =>
    have hne : ¬ Lang.ar = Lang.en := by decide
    have hd := settled_twice
      (fun d => applyDisplays [("download-text-en", "none"), ("download-text-ar", "inline")]
        (showArabicFlowchartLabels (applyDisplays arabicDisplays d)))
      (fun j => settled_comp _ _ j
        (settled_comp _ _ j (applyDisplays_settled arabicDisplays j)
          (applyDisplays_settled _ j))
        (applyDisplays_settled _ j)) page.display
    simp only [switchLanguage, hne, if_false, Page.mk.injEq, true_and, and_true, hiv,
      langButtons_twice]
    exact hd

theorem switchLanguage_pairs (lang : Lang) (page : Page) :
    ∀ pair ∈ localePairs,
      visible (switchLanguage lang page) (localeMember lang pair) = true ∧
      visible (switchLanguage lang page) (localeMember (otherLang lang) pair) = false := by
  intro pair hpair
  simp only [localePairs, List.mem_cons, List.mem_singleton, List.not_mem_nil,
    or_false] at hpair
  cases lang <;>
    rcases hpair with h | h | h | h | h | h | h | h | h | h | h | h | h | h | h | h | h | h |
      h | h | h | h <;>
    subst h <;>
    simp [visible, switchLanguage, localeMember, otherLang, applyDisplays, setDisplay,
      englishDisplays, arabicDisplays, showArabicFlowchartLabels, showEnglishFlowchartLabels]

/-- C12: for each of the two locales and every prior state of the page, after
`switchLanguage` every pair of an English and an Arabic element has the member of the chosen
locale visible and the other member hidden; a second call with the same locale leaves the
page as the first call left it (displays, classes, placeholders and `currentLang`); and
`currentLang` is the chosen locale. -/
theorem switchLanguage_idempotent (lang : Lang) (page : Page) :
    (∀ pair ∈ localePairs,
      visible (switchLanguage lang page) (localeMember lang pair) = true ∧
      visible (switchLanguage lang page) (localeMember (otherLang lang) pair) = false) ∧
    switchLanguage lang (switchLanguage lang page) = switchLanguage lang page ∧
    (switchLanguage lang page).currentLang = lang := by
  refine ⟨switchLanguage_pairs lang page, switchLanguage_twice lang page, ?_⟩
  cases lang <;> rfl

/-- C12, on a page that shows every element and is in Arabic: after the switch to English
the English instructions are visible and the Arabic ones hidden, and the English download
text is visible. -/
theorem switchLanguage_idempotent_witness :
    visible (switchLanguage Lang.en pageSample) "instructions-en" = true ∧
    visible (switchLanguage Lang.en pageSample) "instructions-ar" = false ∧
    visible (switchLanguage Lang.en pageSample) "download-text-en" = true ∧
    (switchLanguage Lang.en pageSample).currentLang = Lang.en :=
  have h := switchLanguage_idempotent Lang.en pageSample
  ⟨(h.1 ("instructions-en", "instructions-ar") (by decide)).1,
    (h.1 ("instructions-en", "instructions-ar") (by decide)).2,
    (h.1 ("download-text-en", "download-text-ar") (by decide)).1, h.2.2⟩

/-! ## Validation on submission -/

theorem toDigits_within_errorMsg (lang : Lang) (n : Nat) :
    Nat.toDigits 10 n <:+: errorMsg lang n := by
  cases lang
  · exact ⟨_, _, rfl⟩
  · exact ⟨_, _, rfl⟩

/-- C11: the submit handler issues the request to `/process` exactly when the UTF-8 length of
the text is at least 16; below 16 the page is left as it was except for the result region,
which holds the error message of the current locale with the byte length in decimal, so the
requests, the step-list container, the class lists, the displays, the block container and
`currentLang` are unchanged; from 16 on one `POST` to `/process` is added, carrying the form
entries and the action. -/
theorem submit_validation (page : Page) (text : Str) (formData : List (Str × Str))
    (action : Str) :
    ((submitHandler page text formData action).requests ≠ page.requests ↔
      16 ≤ utf8Length text) ∧
    (16 ≤ utf8Length text →
      (submitHandler page text formData action).requests =
        page.requests ++ [⟨"/process", "POST", formData ++ [("action".toList, action)]⟩]) ∧
    (utf8Length text < 16 →
      submitHandler page text formData action =
        { page with resultHtml := errorMsg page.currentLang (utf8Length text) } ∧
      Nat.toDigits 10 (utf8Length text) <:+:
        (submitHandler page text formData action).resultHtml ∧
      (submitHandler page text formData action).requests = page.requests ∧
      (submitHandler page text formData action).animationDiv = page.animationDiv ∧
      (submitHandler page text formData action).classes = page.classes ∧
      (submitHandler page text formData action).display = page.display ∧
      (submitHandler page text formData action).blocks = page.blocks ∧
      (submitHandler page text formData action).currentLang = page.currentLang) := by
  have hlow : utf8Length text < 16 →
      submitHandler page text formData action =
        { page with resultHtml := errorMsg page.currentLang (utf8Length text) } := by
    intro h
    simp [submitHandler, h]
  have hhigh : 16 ≤ utf8Length text →
      (submitHandler page text formData action).requests =
        page.requests ++ [⟨"/process", "POST", formData ++ [("action".toList, action)]⟩] := by
    intro h
    have hn : ¬ utf8Length text < 16 := by omega
    simp [submitHandler, hn]
  refine ⟨?_, hhigh, ?_⟩
  · constructor
    · intro hne
      by_contra hlt
      have hlt16 : utf8Length text < 16 := by omega
      rw [hlow hlt16] at hne
      exact hne rfl
    · intro h hreq
      rw [hhigh h] at hreq
      have := congrArg List.length hreq
      simp at this
  · intro h
    rw [hlow h]
    exact ⟨rfl, toDigits_within_errorMsg _ _, rfl, rfl, rfl, rfl, rfl, rfl⟩

/-- C11, on three texts: ten ASCII characters are 10 bytes and no request is sent; sixteen
ASCII characters are 16 bytes and the request is sent; eight Arabic letters are 16 bytes and
the request is sent as well. -/
theorem submit_validation_witness :
    utf8Length "0123456789".toList = 10 ∧
    (submitHandler pageSample "0123456789".toList [] "encrypt".toList).requests =
      pageSample.requests ∧
    (submitHandler pageSample "0123456789".toList [] "encrypt".toList).animationDiv =
      pageSample.animationDiv ∧
    utf8Length "0123456789abcdef".toList = 16 ∧
    (submitHandler pageSample "0123456789abcdef".toList [] "encrypt".toList).requests =
      pageSample.requests ++
        [⟨"/process", "POST", [] ++ [("action".toList, "encrypt".toList)]⟩] ∧
    utf8Length "مفتاحيسر".toList = 16 ∧
    (submitHandler pageSample "مفتاحيسر".toList [] "encrypt".toList).requests ≠
      pageSample.requests :=
  ⟨by decide,
    ((submit_validation pageSample "0123456789".toList [] "encrypt".toList).2.2
      (by decide)).2.2.1,
    ((submit_validation pageSample "0123456789".toList [] "encrypt".toList).2.2
      (by decide)).2.2.2.1,
    by decide,
    (submit_validation pageSample "0123456789abcdef".toList [] "encrypt".toList).2.1
      (by decide),
    by decide,
    (submit_validation pageSample "مفتاحيسر".toList [] "encrypt".toList).1.2 (by decide)⟩

end AesVis
